import Mathlib

/-!
Verification of the habbr posts-and-comments service against its
specification.  The Go source is shallowly embedded: strings are byte
lists (`GoStr`), UUIDs are 16-byte lists, times are unix-second
integers, and each Go function of interest becomes a Lean definition
with the same branching structure.  Nondeterministic inputs of the
source (`uuid.New()`, `time.Now()`, Go map iteration order) are passed
in as explicit parameters; a Go `panic` is a distinguished outcome
constructor, never silently dropped.
-/

namespace Habbr

/-- A Go string, as its byte sequence (bytes are `Nat`, `< 256` for
real data; the model is total).  The embedding covers ASCII
data faithfully; multi-byte UTF-8 whitespace handling of
`strings.TrimSpace` is outside the model and theorems about trimming
carry an ASCII hypothesis. -/
abbrev GoStr := List Nat

/-- `github.com/google/uuid`: `type UUID [16]byte`. -/
abbrev UUID := List Nat

/-- `uuid.Nil`, the zero UUID. -/
def nilUUID : UUID := List.replicate 16 0

/-- Bytes of an ASCII Lean string, for writing concrete inputs. -/
def strBytes (s : String) : GoStr := s.data.map Char.toNat

/-- `unicode.IsSpace` restricted to ASCII bytes: space, \t, \n, \v, \f, \r. -/
def goIsSpace (b : Nat) : Bool :=
  b = 32 || b = 9 || b = 10 || b = 11 || b = 12 || b = 13

/-- `strings.TrimSpace` on ASCII data: drop whitespace from both ends. -/
def trimSpace (s : GoStr) : GoStr :=
  ((s.dropWhile goIsSpace).reverse.dropWhile goIsSpace).reverse

/-- `internal/model.Post` (and the identical repository-layer model). -/
structure Post where
  id : UUID
  title : GoStr
  content : GoStr
  authorId : UUID
  commentsEnabled : Bool
  createdAt : Int
  updatedAt : Int
deriving DecidableEq, Repr

/-- `internal/model.Comment`, without the transient `Children` field:
tree assembly is modelled by a separate rose-tree type, exactly as the
Go code only populates `Children` during assembly. -/
structure Comment where
  id : UUID
  postId : UUID
  parentId : Option UUID
  content : GoStr
  authorId : UUID
  depth : Int
  createdAt : Int
  updatedAt : Int
deriving DecidableEq, Repr

/-- `internal/model.PostInput`. -/
structure PostInput where
  title : GoStr
  content : GoStr
  authorId : UUID
  commentsEnabled : Bool
deriving DecidableEq, Repr

/-- `internal/model.CommentInput`. -/
structure CommentInput where
  postId : UUID
  parentId : Option UUID
  content : GoStr
  authorId : UUID
deriving DecidableEq, Repr

/-- `(*PostInput).Validate` from `internal/model`.  Returns the first
failing check's message, `none` on success.  Note the source trims
only for the emptiness checks; the 200/50000 ceilings are applied to
`len(...)` of the raw, untrimmed string. -/
def postInputValidate (p : PostInput) : Option String :=
  if trimSpace p.title = [] then some "title cannot be empty"
  else if p.title.length > 200 then some "title cannot exceed 200 characters"
  else if trimSpace p.content = [] then some "content cannot be empty"
  else if p.content.length > 50000 then some "content cannot exceed 50000 characters"
  else if p.authorId = nilUUID then some "author_id is required"
  else none

/-- `(*CommentInput).Validate` from `internal/model`: trimmed
emptiness check, raw-length ceiling of 2000, non-nil post and author. -/
def commentInputValidate (c : CommentInput) : Option String :=
  if trimSpace c.content = [] then some "content cannot be empty"
  else if c.content.length > 2000 then some "content cannot exceed 2000 characters"
  else if c.postId = nilUUID then some "post_id is required"
  else if c.authorId = nilUUID then some "author_id is required"
  else none

/-- The domain error taxonomy of `internal/model/errors.go`, restricted
to the constructors the embedded services use.  `validation` carries the
`Details["field"]` entry and the message; `notFound` the entity name and
id; `forbidden` the action string (Go wraps it in an
`action ... is forbidden` message); `internal` the message. -/
inductive DomainError where
  | validation : String → String → DomainError
  | notFound : String → UUID → DomainError
  | forbidden : String → DomainError
  | internal : String → DomainError
deriving DecidableEq, Repr

/-- Outcome of a Go call in the embedding: a value, a returned error,
or a runtime panic. -/
inductive GoResult (α : Type) where
  | ok : α → GoResult α
  | err : DomainError → GoResult α
  | panicked : GoResult α
deriving DecidableEq, Repr

/-- `memory.PostRepository.GetByID`: map lookup.  On absence the Go
method returns `(nil, nil)` — no `repository.ErrNotFound` — which the
model renders as `none` (an absent row with no error). -/
def memPostGetByID (posts : List Post) (id : UUID) : Option Post :=
  posts.find? (fun p => p.id == id)

/-- `memory.CommentRepository.GetByID`: same `(nil, nil)`-on-absence
shape as the post repository. -/
def memCommentGetByID (comments : List Comment) (id : UUID) : Option Comment :=
  comments.find? (fun c => c.id == id)

/-- `post.Service.GetPost` running over the in-memory repository.
When the row is absent the repository yields `(nil, nil)`, so the
service's `err == repository.ErrNotFound` branch is not taken; the nil
row converts to a nil domain post and the success-path log field
`post.ID.String()` dereferences the nil pointer: a runtime panic,
modelled by `.panicked`. -/
def getPostMem (posts : List Post) (id : UUID) : GoResult Post :=
  if id = nilUUID then .err (.validation "id" "post ID is required")
  else
    match memPostGetByID posts id with
    | some p => .ok p
    | none => .panicked

/-- `comment.Service.GetComment` over the in-memory repository; the
absent-row path dereferences the nil conversion result exactly as in
`getPostMem`. -/
def getCommentMem (comments : List Comment) (id : UUID) : GoResult Comment :=
  if id = nilUUID then .err (.validation "id" "comment ID is required")
  else
    match memCommentGetByID comments id with
    | some c => .ok c
    | none => .panicked

/-- A sample non-nil UUID for concrete instances. -/
def uuid1 : UUID := [0, 0, 0, 0, 0, 0, 0, 0, 0, 0, 0, 0, 0, 0, 0, 1]

/-- A second sample non-nil UUID. -/
def uuid2 : UUID := [0, 0, 0, 0, 0, 0, 0, 0, 0, 0, 0, 0, 0, 0, 0, 2]

/-- A third sample non-nil UUID. -/
def uuid3 : UUID := [0, 0, 0, 0, 0, 0, 0, 0, 0, 0, 0, 0, 0, 0, 0, 3]

/-- A fourth sample non-nil UUID. -/
def uuid4 : UUID := [0, 0, 0, 0, 0, 0, 0, 0, 0, 0, 0, 0, 0, 0, 0, 4]

/-- A fifth sample non-nil UUID. -/
def uuid5 : UUID := [0, 0, 0, 0, 0, 0, 0, 0, 0, 0, 0, 0, 0, 0, 0, 5]

/-- C1.  For ids absent from the in-memory stores, `GetPost` /
`GetComment` do not return the claimed NOT_FOUND error: the memory
repositories signal absence as `(nil, nil)` instead of the
`repository.ErrNotFound` sentinel, the services' not-found branches are
skipped, and both calls end in a nil-pointer dereference (panic).  This
refutes the claim for the in-memory implementation (the PostgreSQL
implementation does return the sentinel). -/
theorem c1_memory_absence_panics_not_notfound
    (posts : List Post) (comments : List Comment) (id : UUID)
    (hid : id ≠ nilUUID)
    (hp : ∀ p ∈ posts, p.id ≠ id) (hc : ∀ c ∈ comments, c.id ≠ id) :
    getPostMem posts id = .panicked ∧ getCommentMem comments id = .panicked ∧
    (∀ e, getPostMem posts id ≠ .err e) ∧
    (∀ e, getCommentMem comments id ≠ .err e) := by
  have hfp : memPostGetByID posts id = none := by
    apply List.find?_eq_none.mpr
    intro p hpmem
    simpa using hp p hpmem
  have hfc : memCommentGetByID comments id = none := by
    apply List.find?_eq_none.mpr
    intro c hcmem
    simpa using hc c hcmem
  refine ⟨?_, ?_, ?_, ?_⟩ <;>
    simp [getPostMem, getCommentMem, hid, hfp, hfc]

/-- Witness for C1 at a concrete input: empty stores and a non-nil id. -/
theorem c1_witness :
    getPostMem [] uuid1 = .panicked ∧ getCommentMem [] uuid1 = .panicked ∧
    (∀ e, getPostMem [] uuid1 ≠ .err e) ∧
    (∀ e, getCommentMem [] uuid1 ≠ .err e) :=
  c1_memory_absence_panics_not_notfound [] [] uuid1 (by decide)
    (by intro p hp; cases hp) (by intro c hc; cases hc)

set_option maxRecDepth 8000 in
/-- C5, counterexample to the claim as stated: a post-create input
whose trimmed title has length 200 (within the claimed [1,200]), with
valid content and a non-zero author, is rejected, because the source
applies the 200-ceiling to the untrimmed `len(p.Title)` (202 here).
Validity therefore does not depend only on the trimmed length. -/
theorem c5_counterexample :
    postInputValidate
      { title := [32] ++ List.replicate 200 120 ++ [32]
        content := [120]
        authorId := uuid1
        commentsEnabled := true } =
      some "title cannot exceed 200 characters" ∧
    (trimSpace ([32] ++ List.replicate 200 120 ++ [32])).length = 200 := by
  constructor <;> decide

/-- C5 as amended: a comment-create input passes validation iff its
trimmed content is non-empty, its raw (untrimmed) byte length is at
most 2000, and post id and author id are non-zero; a post-create input
passes iff trimmed title and content are non-empty, raw title length ≤
200, raw content length ≤ 50000, and author id is non-zero.  Stated
for ASCII data, where the embedded `trimSpace` agrees with Go's
`strings.TrimSpace`. -/
theorem c5_amended_validate_characterisation
    (c : CommentInput) (p : PostInput)
    (_hca : ∀ b ∈ c.content, b < 128)
    (_hpt : ∀ b ∈ p.title, b < 128) (_hpc : ∀ b ∈ p.content, b < 128) :
    (commentInputValidate c = none ↔
      (trimSpace c.content ≠ [] ∧ c.content.length ≤ 2000 ∧
       c.postId ≠ nilUUID ∧ c.authorId ≠ nilUUID)) ∧
    (postInputValidate p = none ↔
      (trimSpace p.title ≠ [] ∧ p.title.length ≤ 200 ∧
       trimSpace p.content ≠ [] ∧ p.content.length ≤ 50000 ∧
       p.authorId ≠ nilUUID)) := by
  constructor
  · by_cases h1 : trimSpace c.content = []
    · simp only [commentInputValidate, if_pos h1]
      constructor
      · intro h
        cases h
      · rintro ⟨h, -⟩
        exact absurd h1 h
    · by_cases h2 : c.content.length > 2000
      · simp only [commentInputValidate, if_neg h1, if_pos h2]
        constructor
        · intro h
          cases h
        · rintro ⟨-, h, -⟩
          omega
      · by_cases h3 : c.postId = nilUUID
        · simp only [commentInputValidate, if_neg h1, if_neg h2, if_pos h3]
          constructor
          · intro h
            cases h
          · rintro ⟨-, -, h, -⟩
            exact absurd h3 h
        · by_cases h4 : c.authorId = nilUUID
          · simp only [commentInputValidate, if_neg h1, if_neg h2, if_neg h3,
              if_pos h4]
            constructor
            · intro h
              cases h
            · rintro ⟨-, -, -, h⟩
              exact absurd h4 h
          · simp only [commentInputValidate, if_neg h1, if_neg h2, if_neg h3,
              if_neg h4]
            exact ⟨fun _ => ⟨h1, by omega, h3, h4⟩, fun _ => trivial⟩
  · by_cases g1 : trimSpace p.title = []
    · simp only [postInputValidate, if_pos g1]
      constructor
      · intro h
        cases h
      · rintro ⟨h, -⟩
        exact absurd g1 h
    · by_cases g2 : p.title.length > 200
      · simp only [postInputValidate, if_neg g1, if_pos g2]
        constructor
        · intro h
          cases h
        · rintro ⟨-, h, -⟩
          omega
      · by_cases g3 : trimSpace p.content = []
        · simp only [postInputValidate, if_neg g1, if_neg g2, if_pos g3]
          constructor
          · intro h
            cases h
          · rintro ⟨-, -, h, -⟩
            exact absurd g3 h
        · by_cases g4 : p.content.length > 50000
          · simp only [postInputValidate, if_neg g1, if_neg g2, if_neg g3,
              if_pos g4]
            constructor
            · intro h
              cases h
            · rintro ⟨-, -, -, h, -⟩
              omega
          · by_cases g5 : p.authorId = nilUUID
            · simp only [postInputValidate, if_neg g1, if_neg g2, if_neg g3,
                if_neg g4, if_pos g5]
              constructor
              · intro h
                cases h
              · rintro ⟨-, -, -, -, h⟩
                exact absurd g5 h
            · simp only [postInputValidate, if_neg g1, if_neg g2, if_neg g3,
                if_neg g4, if_neg g5]
              exact ⟨fun _ => ⟨g1, by omega, g3, by omega, g5⟩, fun _ => trivial⟩

/-- Witness for C5 at concrete ASCII inputs. -/
theorem c5_witness :
    (commentInputValidate
        { postId := uuid1, parentId := none, content := strBytes "hello",
          authorId := uuid2 } = none ↔
      (trimSpace (strBytes "hello") ≠ [] ∧ (strBytes "hello").length ≤ 2000 ∧
       uuid1 ≠ nilUUID ∧ uuid2 ≠ nilUUID)) ∧
    (postInputValidate
        { title := strBytes "t", content := strBytes "c", authorId := uuid1,
          commentsEnabled := true } = none ↔
      (trimSpace (strBytes "t") ≠ [] ∧ (strBytes "t").length ≤ 200 ∧
       trimSpace (strBytes "c") ≠ [] ∧ (strBytes "c").length ≤ 50000 ∧
       uuid1 ≠ nilUUID)) :=
  c5_amended_validate_characterisation
    { postId := uuid1, parentId := none, content := strBytes "hello",
      authorId := uuid2 }
    { title := strBytes "t", content := strBytes "c", authorId := uuid1,
      commentsEnabled := true }
    (by decide) (by decide) (by decide)

/-- `repository/model.CommentFilter` (repository layer). -/
structure RepoCommentFilter where
  postId : Option UUID
  parentId : Option UUID
  authorId : Option UUID
  maxDepth : Option Int
  limit : Int
  offset : Int
  orderBy : String
  orderDir : String
deriving DecidableEq, Repr

/-- The filter conditions of `memory.CommentRepository.List`: a comment
is kept unless one of the source's `continue` guards fires.  The
parent guard mirrors the source exactly: with a parent filter set, a
root comment is dropped unless the filter is the nil UUID, and a child
comment is dropped unless its parent matches. -/
def commentMatches (f : RepoCommentFilter) (c : Comment) : Bool :=
  (match f.postId with
   | some pid => c.postId == pid
   | none => true) &&
  (match f.parentId with
   | some fpid =>
     !((c.parentId == none && !(fpid == nilUUID)) ||
       (match c.parentId with
        | some q => !(q == fpid)
        | none => false))
   | none => true) &&
  (match f.authorId with
   | some aid => c.authorId == aid
   | none => true) &&
  (match f.maxDepth with
   | some d => !(c.depth > d)
   | none => true)

/-- The comparator of `memory.CommentRepository.sortComments`:
`depth` ordering falls back to creation time on ties, anything else
orders by creation time; `desc` negates. -/
def commentLess (orderBy orderDir : String) (a b : Comment) : Bool :=
  let r :=
    if orderBy = "depth" then
      if a.depth = b.depth then a.createdAt < b.createdAt else a.depth < b.depth
    else a.createdAt < b.createdAt
  if orderDir = "desc" then !r else r

/-- `memory.CommentRepository.List`: filter, sort, slice
`[offset : offset+limit]` clamped to the collection length.  The Go
`sort.Slice` is an unstable sort; the model resolves the resulting
nondeterminism with a merge sort, which is one of the permitted sorted
permutations — no claim below depends on the order of ties.  A
negative limit (which would make the Go slice expression panic) never
reaches this function through the validated service paths. -/
def memCommentList (comments : List Comment) (f : RepoCommentFilter) : List Comment :=
  let sorted := (comments.filter (commentMatches f)).insertionSort
    (fun a b => commentLess f.orderBy f.orderDir a b = true)
  if f.offset ≥ (sorted.length : Int) then []
  else
    let stop :=
      if f.offset + f.limit > (sorted.length : Int) then (sorted.length : Int)
      else f.offset + f.limit
    (sorted.drop f.offset.toNat).take (stop - f.offset).toNat

/-- `memory.CommentRepository.Count`: the number of comments passing
the same filter conditions as `List`. -/
def memCommentCount (comments : List Comment) (f : RepoCommentFilter) : Nat :=
  (comments.filter (commentMatches f)).length

/-- `memory.CommentRepository.GetChildren`: `List` with a parent
filter, `created_at` ascending, offset 0, and a fixed limit of 1000. -/
def memGetChildren (comments : List Comment) (parentId : UUID) : List Comment :=
  memCommentList comments
    { postId := none, parentId := some parentId, authorId := none,
      maxDepth := none, limit := 1000, offset := 0,
      orderBy := "created_at", orderDir := "asc" }

/-- `memory.CommentRepository.GetByPostID`: `List` with a post filter,
`created_at` ascending, offset 0, and a fixed limit of 1000 (the
source comment calls this "a large limit to fetch all comments"). -/
def memGetByPostID (comments : List Comment) (postId : UUID) : List Comment :=
  memCommentList comments
    { postId := some postId, parentId := none, authorId := none,
      maxDepth := none, limit := 1000, offset := 0,
      orderBy := "created_at", orderDir := "asc" }

/-- `memory.CommentRepository.Delete`: removes the map entry; errors
(with a plain `fmt.Errorf`, not `repository.ErrNotFound`) when the id
is absent. -/
def memCommentDelete (comments : List Comment) (id : UUID) :
    Option (List Comment) :=
  if comments.any (fun c => c.id == id) then
    some (comments.filter (fun c => !(c.id == id)))
  else none

/-- The child-deletion loop of `comment.Service.DeleteComment`: delete
each child in order, aborting on the first repository error. -/
def deleteChildrenLoop (comments : List Comment) :
    List Comment → Option (List Comment)
  | [] => some comments
  | ch :: rest =>
    match memCommentDelete comments ch.id with
    | none => none
    | some comments2 => deleteChildrenLoop comments2 rest

/-- `comment.Service.DeleteComment` over the in-memory repository:
validate ids, fetch for the ownership check, fetch direct children via
`GetChildren`, delete each child, then delete the target.  Repository
delete failures surface as INTERNAL (the `err == ErrNotFound`
comparison never matches the memory repository's plain errors).  The
DELETED notification cannot fail the call and does not affect the
store. -/
def deleteCommentMem (st : List Comment) (id authorId : UUID) :
    GoResult (List Comment) :=
  if id = nilUUID then .err (.validation "id" "comment ID is required")
  else if authorId = nilUUID then
    .err (.validation "author_id" "author ID is required")
  else
    match getCommentMem st id with
    | .panicked => .panicked
    | .err e => .err e
    | .ok comment =>
      if comment.authorId ≠ authorId then .err (.forbidden "delete comment")
      else
        match deleteChildrenLoop st (memGetChildren st id) with
        | none => .err (.internal "failed to delete child comment")
        | some st2 =>
          match memCommentDelete st2 id with
          | none => .err (.internal "failed to delete comment")
          | some st3 => .ok st3

/-- `memory.PostRepository.Exists`. -/
def memPostExists (posts : List Post) (id : UUID) : Bool :=
  posts.any (fun p => p.id == id)

/-- The comment tree produced by `model.BuildCommentsTree`: a comment
with its transitively populated `Children` collection. -/
inductive CommentTree where
  | node : Comment → List CommentTree → CommentTree
deriving Repr

/-- The children a node receives in pass 2 of `BuildCommentsTree`:
comments of the input (in input order) whose parent reference resolves
to it.  For inputs with distinct ids (the only inputs the claims and
the repository produce) this is exactly the map-lookup attachment of
the source. -/
def childrenOf (comments : List Comment) (p : Comment) : List Comment :=
  comments.filter (fun c => c.parentId == some p.id)

/-- Fuel-bounded unfolding of the pointer structure `BuildCommentsTree`
creates.  A fuel of `comments.length` suffices for every acyclic input
(chains of distinct comments cannot be longer than the list), so no
truncation occurs there; on cyclic inputs the Go `FlattenCommentsTree`
would not terminate, which is outside every claim's hypotheses. -/
def growTree (comments : List Comment) : Nat → Comment → CommentTree
  | 0, c => .node c []
  | fuel + 1, c =>
    .node c ((childrenOf comments c).map (growTree comments fuel))

/-- `model.BuildCommentsTree`: index by id, attach children, return
the root comments in input order. -/
def buildCommentsTree (comments : List Comment) : List CommentTree :=
  (comments.filter (fun c => c.parentId == none)).map
    (growTree comments comments.length)

mutual
/-- `model.FlattenCommentsTree` on one tree: preorder traversal. -/
def flattenTree : CommentTree → List Comment
  | .node c ts => c :: flattenForest ts
/-- `model.FlattenCommentsTree` on a forest. -/
def flattenForest : List CommentTree → List Comment
  | [] => []
  | t :: ts => flattenTree t ++ flattenForest ts
end

/-- `model.FlattenCommentsTree`, as applied to a built forest. -/
def flattenCommentsTree (tree : List CommentTree) : List Comment :=
  flattenForest tree

/-- `comment.Service.GetCommentsTree` over the in-memory repository:
check the post exists, fetch the post's comments with the 1000-limit
bulk query, assemble the forest. -/
def getCommentsTreeMem (posts : List Post) (comments : List Comment)
    (postId : UUID) : GoResult (List CommentTree) :=
  if postId = nilUUID then .err (.validation "post_id" "post ID is required")
  else if memPostExists posts postId then
    .ok (buildCommentsTree (memGetByPostID comments postId))
  else .err (.notFound "post" postId)

/-- Root of the three-level chain used against C2. -/
def c2root : Comment :=
  { id := uuid1, postId := uuid4, parentId := none, content := [97],
    authorId := uuid5, depth := 0, createdAt := 0, updatedAt := 0 }

/-- Direct child of `c2root`. -/
def c2child : Comment :=
  { id := uuid2, postId := uuid4, parentId := some uuid1, content := [98],
    authorId := uuid5, depth := 1, createdAt := 1, updatedAt := 1 }

/-- Grandchild: child of `c2child`. -/
def c2grand : Comment :=
  { id := uuid3, postId := uuid4, parentId := some uuid2, content := [99],
    authorId := uuid5, depth := 2, createdAt := 2, updatedAt := 2 }

/-- C2, counterexample to the claim as stated: deleting the root of a
three-level chain succeeds but leaves the grandchild in the in-memory
store, still retrievable through the service — the service deletes only
the direct children and the memory repository's `Delete` removes a
single node, so transitive descendants survive. -/
theorem c2_counterexample :
    deleteCommentMem [c2root, c2child, c2grand] uuid1 uuid5 = .ok [c2grand] ∧
    getCommentMem [c2grand] uuid3 = .ok c2grand := by
  constructor <;> decide

/-- A successful `memory.CommentRepository.Delete` leaves exactly the
rows with a different id. -/
theorem memCommentDelete_eq_of_some {cs cs' : List Comment} {i : UUID}
    (h : memCommentDelete cs i = some cs') :
    cs' = cs.filter (fun c => !(c.id == i)) := by
  unfold memCommentDelete at h
  split at h
  · injection h with h
    exact h.symm
  · cases h

/-- Membership after the child-deletion loop: a row survives iff it was
present and its id is none of the deleted children's ids. -/
theorem deleteChildrenLoop_mem {l : List Comment} :
    ∀ {cs cs' : List Comment}, deleteChildrenLoop cs l = some cs' →
      ∀ x, x ∈ cs' ↔ x ∈ cs ∧ ∀ ch ∈ l, x.id ≠ ch.id := by
  induction l with
  | nil =>
    intro cs cs' h x
    unfold deleteChildrenLoop at h
    injection h with h
    subst h
    simp
  | cons ch rest ih =>
    intro cs cs' h x
    unfold deleteChildrenLoop at h
    revert h
    rcases hmcd : memCommentDelete cs ch.id with _ | cs2
    · intro h
      cases h
    · intro h
      have h2 := ih h x
      have hcs2 := memCommentDelete_eq_of_some hmcd
      subst hcs2
      rw [h2, List.forall_mem_cons]
      simp only [List.mem_filter, Bool.not_eq_eq_eq_not, Bool.not_true,
        beq_eq_false_iff_ne, ne_eq]
      tauto

/-- The guards of `memory.CommentRepository.List` under a (non-nil)
parent filter keep exactly the direct children of that parent. -/
theorem commentMatches_children {id : UUID} (hid : id ≠ nilUUID)
    (c : Comment) :
    commentMatches
      { postId := none, parentId := some id, authorId := none,
        maxDepth := none, limit := 1000, offset := 0,
        orderBy := "created_at", orderDir := "asc" } c =
      (c.parentId == some id) := by
  unfold commentMatches
  rcases hp : c.parentId with _ | q <;>
    simp [hp, hid, beq_eq_false_iff_ne]

/-- When the offset is 0 and at most `limit = 1000` rows match,
`memory.CommentRepository.List` returns the whole sorted match set. -/
theorem memCommentList_eq_sorted {cs : List Comment} {f : RepoCommentFilter}
    (hoff : f.offset = 0) (hlim : f.limit = 1000)
    (hlen : (cs.filter (commentMatches f)).length ≤ 1000) :
    memCommentList cs f =
      (cs.filter (commentMatches f)).insertionSort
        (fun a b => commentLess f.orderBy f.orderDir a b = true) := by
  unfold memCommentList
  rw [hoff, hlim]
  dsimp only
  generalize hS : (cs.filter (commentMatches f)).insertionSort
      (fun a b => commentLess f.orderBy f.orderDir a b = true) = S
  have hSlen : S.length ≤ 1000 := by
    rw [← hS, List.length_insertionSort]
    exact hlen
  split
  · next hz =>
    have h0 : S.length = 0 := by omega
    exact (List.length_eq_zero.mp h0).symm
  · next hz =>
    have hstop :
        (if (0 : Int) + 1000 > (S.length : Int) then (S.length : Int)
          else (0 : Int) + 1000) = (S.length : Int) := by
      split <;> omega
    rw [hstop]
    simp

/-- With at most 1000 direct children stored, `GetChildren` returns
exactly the direct children (a sorted permutation, so membership is
unchanged). -/
theorem memGetChildren_mem {st : List Comment} {id : UUID}
    (hid : id ≠ nilUUID)
    (hlen : (st.filter (fun c => c.parentId == some id)).length ≤ 1000) :
    ∀ c, c ∈ memGetChildren st id ↔ c ∈ st ∧ c.parentId = some id := by
  intro c
  unfold memGetChildren
  have hlen2 : (st.filter (commentMatches
      { postId := none, parentId := some id, authorId := none,
        maxDepth := none, limit := 1000, offset := 0,
        orderBy := "created_at", orderDir := "asc" })).length ≤ 1000 := by
    rw [List.filter_congr (fun a _ => commentMatches_children hid a)]
    exact hlen
  rw [memCommentList_eq_sorted rfl rfl hlen2, List.mem_insertionSort,
    List.mem_filter, commentMatches_children hid c]
  simp

/-- C2 as amended: after a successful `DeleteComment` on the in-memory
repository, the target and its direct children are gone, but only one
level deep — deeper descendants can survive (see the counterexample).
The bound hypothesis reflects `GetChildren`'s fixed 1000-row limit. -/
theorem c2_amended_delete_removes_direct_children
    (st st' : List Comment) (id authorId : UUID)
    (hfew : (st.filter (fun c => c.parentId == some id)).length ≤ 1000)
    (hok : deleteCommentMem st id authorId = .ok st') :
    memCommentGetByID st' id = none ∧
    (∀ c ∈ st, c.parentId = some id → memCommentGetByID st' c.id = none) := by
  unfold deleteCommentMem at hok
  by_cases h1 : id = nilUUID
  · rw [if_pos h1] at hok
    cases hok
  rw [if_neg h1] at hok
  by_cases h2 : authorId = nilUUID
  · rw [if_pos h2] at hok
    cases hok
  rw [if_neg h2] at hok
  revert hok
  rcases getCommentMem st id with comment | e | _
  rotate_left
  · intro hok
    cases hok
  · intro hok
    cases hok
  · intro hok
    dsimp only at hok
    by_cases hau : comment.authorId ≠ authorId
    · rw [if_pos hau] at hok
      cases hok
    rw [if_neg hau] at hok
    revert hok
    rcases hdcl : deleteChildrenLoop st (memGetChildren st id) with _ | st2
    · intro hok
      cases hok
    intro hok
    dsimp only at hok
    revert hok
    rcases hmcd : memCommentDelete st2 id with _ | st3
    · intro hok
      cases hok
    intro hok
    dsimp only at hok
    injection hok with hok
    subst hok
    have hst3 := memCommentDelete_eq_of_some hmcd
    subst hst3
    constructor
    · apply List.find?_eq_none.mpr
      intro x hx
      rw [List.mem_filter] at hx
      simpa using hx.2
    · intro c hc hcpar
      apply List.find?_eq_none.mpr
      intro x hx
      rw [List.mem_filter] at hx
      have hx2 := (deleteChildrenLoop_mem hdcl x).mp hx.1
      have hcin : c ∈ memGetChildren st id :=
        (memGetChildren_mem h1 hfew c).mpr ⟨hc, hcpar⟩
      have := hx2.2 c hcin
      simpa using this

/-- Witness for C2's amended theorem: deleting a store's only comment
(`deleteCommentMem [c2root] uuid1 uuid5 = .ok []`) leaves the target
unretrievable. -/
theorem c2_amended_witness :
    memCommentGetByID ([] : List Comment) uuid1 = none :=
  (c2_amended_delete_removes_direct_children [c2root] [] uuid1 uuid5
    (by decide) (by decide)).1

/-- A duplicate-free list is no longer than any list containing it. -/
theorem nodup_subset_length_le {α : Type} [DecidableEq α]
    {l l' : List α} (h : l.Nodup) (s : l ⊆ l') : l.length ≤ l'.length :=
  calc l.length = l.toFinset.card := (List.toFinset_card_of_nodup h).symm
    _ ≤ l'.toFinset.card := Finset.card_le_card (by
        intro a ha
        simp only [List.mem_toFinset] at ha ⊢
        exact s ha)
    _ ≤ l'.length := l'.toFinset_card_le

theorem flattenTree_node (c : Comment) (ts : List CommentTree) :
    flattenTree (.node c ts) = c :: flattenForest ts := rfl

/-- Membership in a flattened forest comes from one of its trees. -/
theorem mem_flattenForest {ts : List CommentTree} {x : Comment} :
    x ∈ flattenForest ts ↔ ∃ t ∈ ts, x ∈ flattenTree t := by
  induction ts with
  | nil => simp [flattenForest]
  | cons t ts ih => simp [flattenForest, ih]

/-- Every comment in a grown tree comes from the input list. -/
theorem growTree_flatten_subset (L : List Comment) :
    ∀ fuel, ∀ r ∈ L, ∀ x ∈ flattenTree (growTree L fuel r), x ∈ L := by
  intro fuel
  induction fuel with
  | zero =>
    intro r hr x hx
    simp only [growTree, flattenTree_node] at hx
    rcases List.mem_cons.mp hx with h | h
    · exact h ▸ hr
    · simp [flattenForest] at h
  | succ n ih =>
    intro r hr x hx
    simp only [growTree, flattenTree_node] at hx
    rcases List.mem_cons.mp hx with hx | hx
    · exact hx ▸ hr
    · rcases mem_flattenForest.mp hx with ⟨t, ht, hxt⟩
      rcases List.mem_map.mp ht with ⟨q, hq, hqt⟩
      have hqL : q ∈ L := List.mem_filter.mp hq |>.1
      exact ih q hqL x (hqt ▸ hxt)

/-- `FlattenCommentsTree ∘ BuildCommentsTree` never invents comments:
the flattened forest is contained in the input list. -/
theorem flatten_build_subset (L : List Comment) :
    ∀ x ∈ flattenForest (buildCommentsTree L), x ∈ L := by
  intro x hx
  rcases mem_flattenForest.mp hx with ⟨t, ht, hxt⟩
  rcases List.mem_map.mp ht with ⟨r, hr, hrt⟩
  have hrL : r ∈ L := (List.mem_filter.mp hr).1
  exact growTree_flatten_subset L L.length r hrL x (hrt ▸ hxt)

/-- `memory.CommentRepository.List` returns at most `limit` rows
(stated for the fixed 1000-row callers). -/
theorem memCommentList_length_le {cs : List Comment} {f : RepoCommentFilter}
    (hoff : f.offset = 0) (hlim : f.limit = 1000) :
    (memCommentList cs f).length ≤ 1000 := by
  unfold memCommentList
  rw [hoff, hlim]
  dsimp only
  split
  · simp
  · rw [List.length_take]
    split <;> (simp only [sub_zero]; omega)

/-- C10.  The in-memory `GetByPostID` delegates to `List` with a fixed
limit of 1000, so it returns at most 1000 comments; `GetCommentsTree`
builds its forest from that bounded fetch, and when a post holds more
than 1000 comments some stored comment of the post is missing from the
returned tree. -/
theorem c10_tree_capped_at_1000
    (posts : List Post) (comments : List Comment) (postId : UUID)
    (hnodup : (comments.map Comment.id).Nodup)
    (hpid : postId ≠ nilUUID)
    (hpost : memPostExists posts postId = true) :
    (memGetByPostID comments postId).length ≤ 1000 ∧
    getCommentsTreeMem posts comments postId =
      .ok (buildCommentsTree (memGetByPostID comments postId)) ∧
    ((comments.filter (fun c => c.postId == postId)).length > 1000 →
      ∃ c ∈ comments, c.postId = postId ∧
        c ∉ flattenForest (buildCommentsTree (memGetByPostID comments postId))) := by
  have hcap : (memGetByPostID comments postId).length ≤ 1000 :=
    memCommentList_length_le rfl rfl
  refine ⟨hcap, ?_, ?_⟩
  · simp [getCommentsTreeMem, hpid, hpost]
  · intro hmany
    by_contra hall
    push_neg at hall
    have hsub : comments.filter (fun c => c.postId == postId) ⊆
        flattenForest (buildCommentsTree (memGetByPostID comments postId)) := by
      intro c hc
      rcases List.mem_filter.mp hc with ⟨hcm, hcp⟩
      exact hall c hcm (by simpa using hcp)
    have hndM : (comments.filter (fun c => c.postId == postId)).Nodup :=
      (List.Nodup.of_map _ hnodup).filter _
    have hsub2 : comments.filter (fun c => c.postId == postId) ⊆
        memGetByPostID comments postId := fun c hc =>
      flatten_build_subset _ c (hsub hc)
    have := nodup_subset_length_le hndM hsub2
    omega

/-- An id-distinct store of 1001 root comments on one post, for the
C10 witness. -/
def bigStore : List Comment :=
  (List.range 1001).map (fun n =>
    { id := [0, 0, 0, 0, 0, 0, 0, 0, 0, 0, 0, 0, 0, 0, n / 256, n % 256],
      postId := uuid1, parentId := none, content := [97],
      authorId := uuid2, depth := 0, createdAt := (n : Int),
      updatedAt := (n : Int) })

/-- The sample post that `bigStore`'s comments target. -/
def bigPost : Post :=
  { id := uuid1, title := [116], content := [99], authorId := uuid2,
    commentsEnabled := true, createdAt := 0, updatedAt := 0 }

/-- `bigStore` has pairwise distinct ids. -/
theorem bigStore_nodup : (bigStore.map Comment.id).Nodup := by
  unfold bigStore
  rw [List.map_map]
  apply List.Nodup.map_on
  · intro a _ b _ hab
    dsimp only [Function.comp_apply] at hab
    simp only [List.cons.injEq, and_true, true_and] at hab
    have e1 : 256 * (a / 256) + a % 256 = a := Nat.div_add_mod a 256
    have e2 : 256 * (b / 256) + b % 256 = b := Nat.div_add_mod b 256
    rw [hab.1, hab.2] at e1
    exact e1.symm.trans e2
  · exact List.nodup_range 1001

/-- Every comment of `bigStore` targets `bigPost`. -/
theorem bigStore_filter_all :
    bigStore.filter (fun c => c.postId == uuid1) = bigStore := by
  apply List.filter_eq_self.mpr
  intro c hc
  unfold bigStore at hc
  rcases List.mem_map.mp hc with ⟨n, _, hn⟩
  subst hn
  simp

/-- Witness for C10: with 1001 comments stored on one post, the fetch
is capped and some stored comment is absent from the returned tree. -/
theorem c10_witness :
    (memGetByPostID bigStore uuid1).length ≤ 1000 ∧
    getCommentsTreeMem [bigPost] bigStore uuid1 =
      .ok (buildCommentsTree (memGetByPostID bigStore uuid1)) ∧
    ((bigStore.filter (fun c => c.postId == uuid1)).length > 1000 →
      ∃ c ∈ bigStore, c.postId = uuid1 ∧
        c ∉ flattenForest (buildCommentsTree (memGetByPostID bigStore uuid1))) :=
  c10_tree_capped_at_1000 [bigPost] bigStore uuid1 bigStore_nodup
    (by decide) (by decide)

/-- The premise of C10's over-1000 branch is satisfiable: `bigStore`
holds 1001 comments of the post. -/
theorem bigStore_count :
    (bigStore.filter (fun c => c.postId == uuid1)).length = 1001 := by
  rw [bigStore_filter_all]
  unfold bigStore
  rw [List.length_map, List.length_range]

/-- `model.NewComment`: fresh id, trimmed content, the given depth,
both timestamps set to "now".  The nondeterministic `uuid.New()` and
`time.Now()` are the `newId` / `now` parameters. -/
def newComment (input : CommentInput) (newId : UUID) (now : Int)
    (depth : Int) : Comment :=
  { id := newId, postId := input.postId, parentId := input.parentId,
    content := trimSpace input.content, authorId := input.authorId,
    depth := depth, createdAt := now, updatedAt := now }

/-- `memory.CommentRepository.Create`: insert a copy, failing (plain
error) when the id is already present. -/
def memCommentCreate (comments : List Comment) (c : Comment) :
    Option (List Comment) :=
  if comments.any (fun d => d.id == c.id) then none
  else some (comments ++ [c])

/-- The persist-and-return tail of `comment.Service.CreateComment`:
repository failure becomes INTERNAL; the CREATED notification error is
logged and swallowed, so it never affects the outcome. -/
def createPersist (comments : List Comment) (c : Comment) :
    GoResult (Comment × List Comment) :=
  match memCommentCreate comments c with
  | none => .err (.internal "failed to create comment")
  | some comments2 => .ok (c, comments2)

/-- `comment.Service.CreateComment` over the in-memory repositories:
validate; load the post (`(nil, nil)` on absence panics at
`post.CommentsEnabled`); FORBIDDEN when comments are disabled; with a
parent id, load the parent (absence panics at `parentComment.PostID`),
require the same post, compute `depth = parent.Depth + 1` and reject
`depth > 50`; construct and persist. -/
def createCommentMem (posts : List Post) (comments : List Comment)
    (input : CommentInput) (newId : UUID) (now : Int) :
    GoResult (Comment × List Comment) :=
  match commentInputValidate input with
  | some msg => .err (.validation "input" msg)
  | none =>
    match memPostGetByID posts input.postId with
    | none => .panicked
    | some post =>
      if !post.commentsEnabled then
        .err (.forbidden "comments are disabled for this post")
      else
        match input.parentId with
        | none => createPersist comments (newComment input newId now 0)
        | some pid =>
          match memCommentGetByID comments pid with
          | none => .panicked
          | some parent =>
            if parent.postId ≠ input.postId then
              .err (.validation "parent_id"
                "parent comment must belong to the same post")
            else if parent.depth + 1 > 50 then
              .err (.validation "depth" "comment depth cannot exceed 50")
            else
              createPersist comments
                (newComment input newId now (parent.depth + 1))

/-- C6.  Depth derivation and the depth ceiling of `CreateComment`:
for an otherwise-valid call (input valid, post present with comments
enabled, fresh id), a parentless create succeeds with depth 0; with a
stored parent of the same post it succeeds with depth
`parent.depth + 1` when that is ≤ 50 and fails with VALIDATION
("comment depth cannot exceed 50") when it exceeds 50; a parent of a
different post fails with VALIDATION citing `parent_id`. -/
theorem c6_create_comment_depth
    (posts : List Post) (comments : List Comment) (input : CommentInput)
    (newId : UUID) (now : Int) (post : Post)
    (hval : commentInputValidate input = none)
    (hpost : memPostGetByID posts input.postId = some post)
    (hen : post.commentsEnabled = true)
    (hfresh : ∀ c ∈ comments, c.id ≠ newId) :
    (input.parentId = none →
      createCommentMem posts comments input newId now =
        .ok (newComment input newId now 0,
          comments ++ [newComment input newId now 0]) ∧
      (newComment input newId now 0).depth = 0) ∧
    (∀ pid parent, input.parentId = some pid →
      memCommentGetByID comments pid = some parent →
      (parent.postId = input.postId →
        (parent.depth + 1 ≤ 50 →
          createCommentMem posts comments input newId now =
            .ok (newComment input newId now (parent.depth + 1),
              comments ++ [newComment input newId now (parent.depth + 1)]) ∧
          (newComment input newId now (parent.depth + 1)).depth =
            parent.depth + 1) ∧
        (parent.depth + 1 > 50 →
          createCommentMem posts comments input newId now =
            .err (.validation "depth" "comment depth cannot exceed 50"))) ∧
      (parent.postId ≠ input.postId →
        createCommentMem posts comments input newId now =
          .err (.validation "parent_id"
            "parent comment must belong to the same post"))) := by
  have hnew : ∀ d : Int,
      createPersist comments (newComment input newId now d) =
        .ok (newComment input newId now d,
          comments ++ [newComment input newId now d]) := by
    intro d
    unfold createPersist memCommentCreate
    have hany : comments.any
        (fun c => c.id == (newComment input newId now d).id) = false := by
      rw [List.any_eq_false]
      intro c hc
      simpa [newComment] using hfresh c hc
    rw [hany]
    simp
  have hbase :
      createCommentMem posts comments input newId now =
        (match input.parentId with
         | none => createPersist comments (newComment input newId now 0)
         | some pid =>
           match memCommentGetByID comments pid with
           | none => .panicked
           | some parent =>
             if parent.postId ≠ input.postId then
               .err (.validation "parent_id"
                 "parent comment must belong to the same post")
             else if parent.depth + 1 > 50 then
               .err (.validation "depth" "comment depth cannot exceed 50")
             else
               createPersist comments
                 (newComment input newId now (parent.depth + 1))) := by
    unfold createCommentMem
    rw [hval, hpost]
    dsimp only
    simp only [hen, Bool.not_true, Bool.false_eq_true, if_false]
  constructor
  · intro hroot
    refine ⟨?_, rfl⟩
    rw [hbase, hroot]
    dsimp only
    exact hnew 0
  · intro pid parent hpid hparent
    have hbase2 := hbase
    simp only [hpid, hparent] at hbase2
    constructor
    · intro hsame
      constructor
      · intro hdle
        refine ⟨?_, rfl⟩
        rw [hbase2, if_neg (by simp [hsame]), if_neg (by omega)]
        exact hnew (parent.depth + 1)
      · intro hdgt
        rw [hbase2, if_neg (by simp [hsame]), if_pos (by omega)]
    · intro hdiff
      rw [hbase2, if_pos hdiff]

/-- A parent comment on `bigPost`'s post for the C6 witness. -/
def wparent : Comment :=
  { id := uuid2, postId := uuid1, parentId := none, content := [112],
    authorId := uuid3, depth := 0, createdAt := 0, updatedAt := 0 }

/-- The C6 witness input: a reply to `wparent`. -/
def winput : CommentInput :=
  { postId := uuid1, parentId := some uuid2, content := [104],
    authorId := uuid3 }

/-- Witness for C6: a reply to a depth-0 parent succeeds with depth 1. -/
theorem c6_witness :
    createCommentMem [bigPost] [wparent] winput uuid4 5 =
      .ok (newComment winput uuid4 5 (wparent.depth + 1),
        [wparent] ++ [newComment winput uuid4 5 (wparent.depth + 1)]) ∧
    (newComment winput uuid4 5 (wparent.depth + 1)).depth =
      wparent.depth + 1 :=
  ((c6_create_comment_depth [bigPost] [wparent] winput uuid4 5 bigPost
      (by decide) (by decide) (by decide)
      (by decide)).2 uuid2 wparent (by decide) (by decide)).1
    (by decide) |>.1 (by decide)
/-- Lowercase hex digit byte of a nibble (`%x`, as `uuid.String` uses). -/
def hexDigit (v : Nat) : Nat := if v < 10 then 48 + v else 87 + v

/-- Hex digit value (`xtob` of the uuid library: both cases accepted). -/
def hexVal (c : Nat) : Option Nat :=
  if 48 ≤ c ∧ c ≤ 57 then some (c - 48)
  else if 97 ≤ c ∧ c ≤ 102 then some (c - 97 + 10)
  else if 65 ≤ c ∧ c ≤ 70 then some (c - 65 + 10)
  else none

/-- Two lowercase hex digits of a byte. -/
def hexPair (b : Nat) : List Nat := [hexDigit (b / 16), hexDigit (b % 16)]

/-- `uuid.UUID.String()`: the canonical 8-4-4-4-12 lowercase hex form.
The wildcard branch is unreachable for the `[16]byte` array type. -/
def uuidToString (u : UUID) : GoStr :=
  match u with
  | [b0, b1, b2, b3, b4, b5, b6, b7, b8, b9, b10, b11, b12, b13, b14, b15] =>
    hexPair b0 ++ hexPair b1 ++ hexPair b2 ++ hexPair b3 ++ [45] ++
    hexPair b4 ++ hexPair b5 ++ [45] ++ hexPair b6 ++ hexPair b7 ++ [45] ++
    hexPair b8 ++ hexPair b9 ++ [45] ++
    hexPair b10 ++ hexPair b11 ++ hexPair b12 ++ hexPair b13 ++
    hexPair b14 ++ hexPair b15
  | _ => []

/-- Little-endian decimal digit bytes of a natural number; any fuel
above the number suffices and the result is fuel-independent there. -/
def natDecRevAux : Nat → Nat → List Nat
  | 0, _ => []
  | fuel + 1, n =>
    if n < 10 then [48 + n] else (48 + n % 10) :: natDecRevAux fuel (n / 10)

/-- Decimal digit bytes of a natural number (big-endian). -/
def natDec (n : Nat) : GoStr := (natDecRevAux (n + 1) n).reverse

/-- `fmt.Sprintf("%d", i)` for an int64 value. -/
def fmtInt (i : Int) : GoStr :=
  if i < 0 then 45 :: natDec i.natAbs else natDec i.toNat

/-- Value of big-endian decimal digit bytes. -/
def digitsVal (ds : List Nat) : Nat :=
  ds.foldl (fun acc d => acc * 10 + (d - 48)) 0

/-- All bytes are decimal digits. -/
def allDigits (ds : List Nat) : Bool := ds.all (fun d => 48 ≤ d && d ≤ 57)

/-- `strconv.ParseInt(s, 10, 64)`: optional sign, non-empty run of
decimal digits, int64 range check (error outside the range). -/
def goParseInt64 (s : GoStr) : Option Int :=
  match s with
  | [] => none
  | c :: rest =>
    let neg : Bool := c = 45
    let ds := if c = 45 ∨ c = 43 then rest else c :: rest
    if ds = [] then none
    else if !(allDigits ds) then none
    else
      let v := digitsVal ds
      if neg then
        if v ≤ 2 ^ 63 then some (-(v : Int)) else none
      else if v ≤ 2 ^ 63 - 1 then some (v : Int) else none

/-- Standard Base64 alphabet character of a sextet. -/
def b64Char (v : Nat) : Nat :=
  if v < 26 then 65 + v
  else if v < 52 then 97 + (v - 26)
  else if v < 62 then 48 + (v - 52)
  else if v = 62 then 43
  else 47

/-- Standard Base64 alphabet value of a byte. -/
def b64Val (c : Nat) : Option Nat :=
  if 65 ≤ c ∧ c ≤ 90 then some (c - 65)
  else if 97 ≤ c ∧ c ≤ 122 then some (c - 97 + 26)
  else if 48 ≤ c ∧ c ≤ 57 then some (c - 48 + 52)
  else if c = 43 then some 62
  else if c = 47 then some 63
  else none

/-- `base64.StdEncoding.EncodeToString`: three bytes to four
characters, with `=` padding on the final partial quantum. -/
def base64Encode : List Nat → List Nat
  | a :: b :: c :: rest =>
    b64Char (a / 4) :: b64Char (a % 4 * 16 + b / 16) ::
    b64Char (b % 16 * 4 + c / 64) :: b64Char (c % 64) :: base64Encode rest
  | [a, b] =>
    [b64Char (a / 4), b64Char (a % 4 * 16 + b / 16), b64Char (b % 16 * 4), 61]
  | [a] => [b64Char (a / 4), b64Char (a % 4 * 16), 61, 61]
  | [] => []

/-- `base64.StdEncoding.DecodeString`: four-character quanta, padding
only at the end, errors on foreign bytes, wrong padding, or a length
that is not a multiple of four.  Non-canonical trailing bits are
accepted (non-strict mode), matching Go; the decoder's skipping of
embedded CR/LF is not modelled and no claim exercises it. -/
def base64Decode : List Nat → Option (List Nat)
  | [] => some []
  | c1 :: c2 :: c3 :: c4 :: rest =>
    match b64Val c1, b64Val c2 with
    | some v1, some v2 =>
      if c3 = 61 then
        if c4 = 61 ∧ rest = [] then some [v1 * 4 + v2 / 16] else none
      else
        match b64Val c3 with
        | some v3 =>
          if c4 = 61 then
            if rest = [] then some [v1 * 4 + v2 / 16, v2 % 16 * 16 + v3 / 4]
            else none
          else
            match b64Val c4 with
            | some v4 =>
              match base64Decode rest with
              | some tail =>
                some ((v1 * 4 + v2 / 16) :: (v2 % 16 * 16 + v3 / 4) ::
                  (v3 % 4 * 64 + v4) :: tail)
              | none => none
            | none => none
        | none => none
    | _, _ => none
  | _ => none

/-- The cursor construction shared by `buildPostConnection` and
`buildCommentConnection`: Base64 of `<unix seconds>_<uuid string>`. -/
def encodeCursor (ts : Int) (id : UUID) : GoStr :=
  base64Encode (fmtInt ts ++ [95] ++ uuidToString id)

/-- Value of two hex digit bytes. -/
def hexPairVal (a b : Nat) : Option Nat :=
  match hexVal a, hexVal b with
  | some x, some y => some (x * 16 + y)
  | _, _ => none

/-- `uuid.Parse` on the canonical 36-character form (the only shape
the cursor codec produces; the library's urn/braced/32-hex variants
are not modelled and no claim depends on them). -/
def uuidParse (s : GoStr) : Option UUID :=
  match s with
  | e0 :: e1 :: e2 :: e3 :: e4 :: e5 :: e6 :: e7 :: d8 :: e9 :: e10 ::
    e11 :: e12 :: d13 :: e14 :: e15 :: e16 :: e17 :: d18 :: e19 :: e20 ::
    e21 :: e22 :: d23 :: e24 :: e25 :: e26 :: e27 :: e28 :: e29 :: e30 ::
    e31 :: e32 :: e33 :: e34 :: e35 :: [] =>
    if d8 = 45 ∧ d13 = 45 ∧ d18 = 45 ∧ d23 = 45 then
      match hexPairVal e0 e1, hexPairVal e2 e3, hexPairVal e4 e5,
            hexPairVal e6 e7, hexPairVal e9 e10, hexPairVal e11 e12,
            hexPairVal e14 e15, hexPairVal e16 e17, hexPairVal e19 e20,
            hexPairVal e21 e22, hexPairVal e24 e25, hexPairVal e26 e27,
            hexPairVal e28 e29, hexPairVal e30 e31, hexPairVal e32 e33,
            hexPairVal e34 e35 with
      | some b0, some b1, some b2, some b3, some b4, some b5, some b6,
        some b7, some b8, some b9, some b10, some b11, some b12, some b13,
        some b14, some b15 =>
        some [b0, b1, b2, b3, b4, b5, b6, b7, b8, b9, b10, b11, b12, b13,
          b14, b15]
      | _, _, _, _, _, _, _, _, _, _, _, _, _, _, _, _ => none
    else none
  | _ => none

/-- `strings.Index(s, "_")` as a byte index; Go's -1 becomes `none`. -/
def goIndex : List Nat → Nat → Option Nat
  | [], _ => none
  | b :: rest, t => if b = t then some 0 else (goIndex rest t).map (· + 1)

/-- Outcome of `decodeCursor`: a (timestamp, id) pair, a returned
error (tagged by which wrapping message the source uses), or a panic. -/
inductive CursorResult where
  | ok : Int → UUID → CursorResult
  | err : String → CursorResult
  | panicked : CursorResult
deriving DecidableEq, Repr

/-- `post.Service.decodeCursor`: Base64-decode, split at the first
`_`, parse timestamp and id.  When no `_` is present `strings.Index`
returns -1 and the source's slice expression `parts[:-1]` panics with
a slice bounds error before any error can be returned. -/
def decodeCursor (cursor : GoStr) : CursorResult :=
  match base64Decode cursor with
  | none => .err "invalid cursor"
  | some parts =>
    match goIndex parts 95 with
    | none => .panicked
    | some i =>
      match goParseInt64 (parts.take i) with
      | none => .err "invalid cursor timestamp"
      | some ts =>
        match uuidParse (parts.drop (i + 1)) with
        | none => .err "invalid cursor UUID"
        | some id => .ok ts id

/-- `model.PaginationInput` (After/Before are carried but unused by
the converters, exactly as in the source). -/
structure PaginationInput where
  first : Option Int
  last : Option Int
  after : Option GoStr
  before : Option GoStr
deriving DecidableEq, Repr

/-- `model.PostFilter` (domain layer). -/
structure PostFilter where
  authorId : Option UUID
  withComments : Option Bool
deriving DecidableEq, Repr

/-- `model.CommentFilter` (domain layer). -/
structure CommentFilter where
  postId : Option UUID
  parentId : Option UUID
  authorId : Option UUID
  maxDepth : Option Int
deriving DecidableEq, Repr

/-- `repository/model.PostFilter`. -/
structure RepoPostFilter where
  authorId : Option UUID
  withComments : Option Bool
  limit : Int
  offset : Int
  orderBy : String
  orderDir : String
deriving DecidableEq, Repr

/-- The filter conditions of `memory.PostRepository.List`: the
`WithComments` filter is deliberately ignored by the in-memory
implementation (its source comments say so). -/
def postMatches (f : RepoPostFilter) (p : Post) : Bool :=
  match f.authorId with
  | some aid => p.authorId == aid
  | none => true

/-- Lexicographic byte comparison, `strings.Compare(a, b) < 0`. -/
def goStrLt : GoStr → GoStr → Bool
  | [], [] => false
  | [], _ :: _ => true
  | _ :: _, [] => false
  | a :: as, b :: bs => if a < b then true else if b < a then false else goStrLt as bs

/-- The comparator of `memory.PostRepository.sortPosts`. -/
def postLess (orderBy orderDir : String) (a b : Post) : Bool :=
  let r :=
    if orderBy = "title" then goStrLt a.title b.title
    else if orderBy = "updated_at" then a.updatedAt < b.updatedAt
    else a.createdAt < b.createdAt
  if orderDir = "desc" then !r else r

/-- `memory.PostRepository.List`: filter, sort, slice — the same
shape as the comment repository's `List`. -/
def memPostList (posts : List Post) (f : RepoPostFilter) : List Post :=
  let sorted := (posts.filter (postMatches f)).insertionSort
    (fun a b => postLess f.orderBy f.orderDir a b = true)
  if f.offset ≥ (sorted.length : Int) then []
  else
    let stop :=
      if f.offset + f.limit > (sorted.length : Int) then (sorted.length : Int)
      else f.offset + f.limit
    (sorted.drop f.offset.toNat).take (stop - f.offset).toNat

/-- `memory.PostRepository.Count`. -/
def memPostCount (posts : List Post) (f : RepoPostFilter) : Nat :=
  (posts.filter (postMatches f)).length

/-- The `last` and both-set checks of `validatePagination`. -/
def validatePaginationLast (pg : PaginationInput) : Option DomainError :=
  match pg.last with
  | some l =>
    if l < 0 then some (.validation "last" "last must be non-negative")
    else if l > 100 then some (.validation "last" "last cannot exceed 100")
    else
      match pg.first with
      | some _ => some (.validation "pagination" "cannot specify both first and last")
      | none => none
  | none => none

/-- `Service.validatePagination` (identical in the post and comment
services): `first`/`last` each within [0, 100] when present, and not
both present. -/
def validatePagination (pg : PaginationInput) : Option DomainError :=
  match pg.first with
  | some f =>
    if f < 0 then some (.validation "first" "first must be non-negative")
    else if f > 100 then some (.validation "first" "first cannot exceed 100")
    else validatePaginationLast pg
  | none => validatePaginationLast pg

/-- `converter.PostFilterToRepo`: defaults (created_at desc, limit 20,
offset 0), then `first` and `last` each overwrite the limit, capped at
100. -/
def postFilterToRepo (filter : PostFilter) (pg : PaginationInput) :
    RepoPostFilter :=
  let base : RepoPostFilter :=
    { authorId := filter.authorId, withComments := filter.withComments,
      orderBy := "created_at", orderDir := "desc", limit := 20, offset := 0 }
  let f1 :=
    match pg.first with
    | some f => { base with limit := if f > 100 then 100 else f }
    | none => base
  match pg.last with
  | some l => { f1 with limit := if l > 100 then 100 else l }
  | none => f1

/-- `converter.CommentFilterToRepo`: defaults (created_at asc, limit
50, offset 0), then `first`/`last` overwrite the limit, capped at 200. -/
def commentFilterToRepo (filter : CommentFilter) (pg : PaginationInput) :
    RepoCommentFilter :=
  let base : RepoCommentFilter :=
    { postId := filter.postId, parentId := filter.parentId,
      authorId := filter.authorId, maxDepth := filter.maxDepth,
      orderBy := "created_at", orderDir := "asc", limit := 50, offset := 0 }
  let f1 :=
    match pg.first with
    | some f => { base with limit := if f > 200 then 200 else f }
    | none => base
  match pg.last with
  | some l => { f1 with limit := if l > 200 then 200 else l }
  | none => f1

/-- `model.PageInfo`. -/
structure PageInfo where
  hasNextPage : Bool
  hasPreviousPage : Bool
  startCursor : Option GoStr
  endCursor : Option GoStr
deriving DecidableEq, Repr

/-- `model.PostEdge`. -/
structure PostEdge where
  node : Post
  cursor : GoStr
deriving DecidableEq, Repr

/-- `model.PostConnection`. -/
structure PostConnection where
  edges : List PostEdge
  pageInfo : PageInfo
deriving DecidableEq, Repr

/-- `model.CommentEdge`. -/
structure CommentEdge where
  node : Comment
  cursor : GoStr
deriving DecidableEq, Repr

/-- `model.CommentConnection`. -/
structure CommentConnection where
  edges : List CommentEdge
  pageInfo : PageInfo
deriving DecidableEq, Repr

/-- `post.Service.buildPostConnection`: cursors from (created_at, id);
start/end cursors and the `hasNextPage`/`hasPreviousPage` derivation
(`len(edges) == requested && totalCount > requested`) are applied only
when the page is non-empty. -/
def buildPostConnection (posts : List Post) (pg : PaginationInput)
    (totalCount : Int) : PostConnection :=
  let edges := posts.map (fun p => PostEdge.mk p (encodeCursor p.createdAt p.id))
  if 0 < edges.length then
    { edges := edges,
      pageInfo :=
        { hasNextPage :=
            match pg.first with
            | some f => decide ((edges.length : Int) = f ∧ totalCount > f)
            | none => false
          hasPreviousPage :=
            match pg.last with
            | some l => decide ((edges.length : Int) = l ∧ totalCount > l)
            | none => false
          startCursor := edges.head?.map (fun e => e.cursor)
          endCursor := edges.getLast?.map (fun e => e.cursor) } }
  else { edges := edges, pageInfo := ⟨false, false, none, none⟩ }

/-- `comment.Service.buildCommentConnection`: identical derivation. -/
def buildCommentConnection (comments : List Comment) (pg : PaginationInput)
    (totalCount : Int) : CommentConnection :=
  let edges := comments.map
    (fun c => CommentEdge.mk c (encodeCursor c.createdAt c.id))
  if 0 < edges.length then
    { edges := edges,
      pageInfo :=
        { hasNextPage :=
            match pg.first with
            | some f => decide ((edges.length : Int) = f ∧ totalCount > f)
            | none => false
          hasPreviousPage :=
            match pg.last with
            | some l => decide ((edges.length : Int) = l ∧ totalCount > l)
            | none => false
          startCursor := edges.head?.map (fun e => e.cursor)
          endCursor := edges.getLast?.map (fun e => e.cursor) } }
  else { edges := edges, pageInfo := ⟨false, false, none, none⟩ }

/-- `post.Service.ListPosts` over the in-memory repository: validate
pagination, convert the filter, fetch the page and the total count,
build the connection (the in-memory `List`/`Count` cannot fail). -/
def listPostsMem (posts : List Post) (filter : PostFilter)
    (pg : PaginationInput) : GoResult PostConnection :=
  match validatePagination pg with
  | some e => .err e
  | none =>
    let repoFilter := postFilterToRepo filter pg
    .ok (buildPostConnection (memPostList posts repoFilter) pg
      (memPostCount posts repoFilter : Int))

/-- `comment.Service.ListComments` over the in-memory repository. -/
def listCommentsMem (comments : List Comment) (filter : CommentFilter)
    (pg : PaginationInput) : GoResult CommentConnection :=
  match validatePagination pg with
  | some e => .err e
  | none =>
    let repoFilter := commentFilterToRepo filter pg
    .ok (buildCommentConnection (memCommentList comments repoFilter) pg
      (memCommentCount comments repoFilter : Int))

/-- Page size of the in-memory post `List` at offset 0: the limit
clamped by the number of matching rows. -/
theorem memPostList_length {ps : List Post} {f : RepoPostFilter}
    (hoff : f.offset = 0) :
    (memPostList ps f).length =
      min f.limit.toNat (ps.filter (postMatches f)).length := by
  unfold memPostList
  rw [hoff]
  dsimp only
  generalize hS : (ps.filter (postMatches f)).insertionSort
    (fun a b => postLess f.orderBy f.orderDir a b = true) = S
  have hSlen : S.length = (ps.filter (postMatches f)).length := by
    rw [← hS]
    exact List.length_insertionSort _ _
  rw [← hSlen]
  split
  · next hz =>
    simp only [List.length_nil]
    omega
  · next hz =>
    simp only [List.length_take, List.length_drop]
    split <;> omega

/-- Page size of the in-memory comment `List` at offset 0. -/
theorem memCommentList_length {cs : List Comment} {f : RepoCommentFilter}
    (hoff : f.offset = 0) :
    (memCommentList cs f).length =
      min f.limit.toNat (cs.filter (commentMatches f)).length := by
  unfold memCommentList
  rw [hoff]
  dsimp only
  generalize hS : (cs.filter (commentMatches f)).insertionSort
    (fun a b => commentLess f.orderBy f.orderDir a b = true) = S
  have hSlen : S.length = (cs.filter (commentMatches f)).length := by
    rw [← hS]
    exact List.length_insertionSort _ _
  rw [← hSlen]
  split
  · next hz =>
    simp only [List.length_nil]
    omega
  · next hz =>
    simp only [List.length_take, List.length_drop]
    split <;> omega

/-- The edges of a built post connection are the fetched rows with
their cursors. -/
theorem buildPostConnection_edges (L : List Post) (pg : PaginationInput)
    (tc : Int) :
    (buildPostConnection L pg tc).edges =
      L.map (fun p => PostEdge.mk p (encodeCursor p.createdAt p.id)) := by
  unfold buildPostConnection
  dsimp only
  split <;> rfl

/-- `hasNextPage` of a non-empty post page under `first`. -/
theorem buildPostConnection_hasNext {L : List Post} {pg : PaginationInput}
    {tc f : Int} (hfirst : pg.first = some f) (hpos : 0 < L.length) :
    (buildPostConnection L pg tc).pageInfo.hasNextPage =
      decide ((L.length : Int) = f ∧ tc > f) := by
  unfold buildPostConnection
  dsimp only
  rw [if_pos (by simpa using hpos), hfirst]
  simp

/-- An empty fetch builds the empty page with inert pageInfo. -/
theorem buildPostConnection_empty {L : List Post} (pg : PaginationInput)
    (tc : Int) (h : L = []) :
    buildPostConnection L pg tc = ⟨[], ⟨false, false, none, none⟩⟩ := by
  subst h
  rfl

/-- The edges of a built comment connection. -/
theorem buildCommentConnection_edges (L : List Comment)
    (pg : PaginationInput) (tc : Int) :
    (buildCommentConnection L pg tc).edges =
      L.map (fun c => CommentEdge.mk c (encodeCursor c.createdAt c.id)) := by
  unfold buildCommentConnection
  dsimp only
  split <;> rfl

/-- `hasNextPage` of a non-empty comment page under `first`. -/
theorem buildCommentConnection_hasNext {L : List Comment}
    {pg : PaginationInput} {tc f : Int} (hfirst : pg.first = some f)
    (hpos : 0 < L.length) :
    (buildCommentConnection L pg tc).pageInfo.hasNextPage =
      decide ((L.length : Int) = f ∧ tc > f) := by
  unfold buildCommentConnection
  dsimp only
  rw [if_pos (by simpa using hpos), hfirst]
  simp

/-- An empty comment fetch builds the empty page. -/
theorem buildCommentConnection_empty {L : List Comment}
    (pg : PaginationInput) (tc : Int) (h : L = []) :
    buildCommentConnection L pg tc = ⟨[], ⟨false, false, none, none⟩⟩ := by
  subst h
  rfl

/-- C7, counterexample to the claim as stated: one stored post,
`first = 0`.  The count (1) exceeds `first` (0) and the returned page
has exactly `first` edges (zero), so the claim requires
`hasNextPage = true`; but the source derives pageInfo only when
`len(edges) > 0`, so the call returns `hasNextPage = false`. -/
theorem c7_counterexample :
    listPostsMem [bigPost] ⟨none, none⟩ ⟨some 0, none, none, none⟩ =
      .ok ⟨[], ⟨false, false, none, none⟩⟩ ∧
    memPostCount [bigPost]
      (postFilterToRepo ⟨none, none⟩ ⟨some 0, none, none, none⟩) = 1 := by
  constructor <;> decide

/-- C7 as amended: for a list call with `first = f` supplied
(`0 ≤ f ≤ 100`, no `last`), the call succeeds; if `count ≤ f` then
`hasNextPage = false`; if `count > f` and `f ≥ 1` then
`hasNextPage = true` and the page has exactly `f` edges; and `f = 0`
returns an empty page whose pageInfo is entirely inert
(`hasNextPage = false`, no cursors) — for posts and comments alike. -/
theorem c7_amended_has_next_page
    (posts : List Post) (comments : List Comment)
    (pf : PostFilter) (cf : CommentFilter) (pg : PaginationInput) (f : Int)
    (hfirst : pg.first = some f) (hlast : pg.last = none)
    (hf0 : 0 ≤ f) (hf100 : f ≤ 100) :
    ∃ pc cc, listPostsMem posts pf pg = .ok pc ∧
      listCommentsMem comments cf pg = .ok cc ∧
      ((memPostCount posts (postFilterToRepo pf pg) : Int) ≤ f →
        pc.pageInfo.hasNextPage = false) ∧
      ((memPostCount posts (postFilterToRepo pf pg) : Int) > f → 1 ≤ f →
        pc.pageInfo.hasNextPage = true ∧ (pc.edges.length : Int) = f) ∧
      (f = 0 → pc.edges = [] ∧ pc.pageInfo = ⟨false, false, none, none⟩) ∧
      ((memCommentCount comments (commentFilterToRepo cf pg) : Int) ≤ f →
        cc.pageInfo.hasNextPage = false) ∧
      ((memCommentCount comments (commentFilterToRepo cf pg) : Int) > f →
        1 ≤ f → cc.pageInfo.hasNextPage = true ∧
          (cc.edges.length : Int) = f) ∧
      (f = 0 → cc.edges = [] ∧ cc.pageInfo = ⟨false, false, none, none⟩) := by
  have hval : validatePagination pg = none := by
    simp only [validatePagination, hfirst, validatePaginationLast, hlast]
    rw [if_neg (by omega), if_neg (by omega)]
  have hrp : postFilterToRepo pf pg =
      { authorId := pf.authorId, withComments := pf.withComments,
        orderBy := "created_at", orderDir := "desc", limit := f,
        offset := 0 } := by
    simp only [postFilterToRepo, hfirst, hlast]
    rw [if_neg (by omega)]
  have hrc : commentFilterToRepo cf pg =
      { postId := cf.postId, parentId := cf.parentId,
        authorId := cf.authorId, maxDepth := cf.maxDepth,
        orderBy := "created_at", orderDir := "asc", limit := f,
        offset := 0 } := by
    simp only [commentFilterToRepo, hfirst, hlast]
    rw [if_neg (by omega)]
  have hplen : (memPostList posts (postFilterToRepo pf pg)).length =
      min f.toNat (memPostCount posts (postFilterToRepo pf pg)) := by
    rw [memPostList_length (by rw [hrp])]
    rw [hrp]
    rfl
  have hclen :
      (memCommentList comments (commentFilterToRepo cf pg)).length =
        min f.toNat (memCommentCount comments (commentFilterToRepo cf pg)) := by
    rw [memCommentList_length (by rw [hrc])]
    rw [hrc]
    rfl
  refine ⟨buildPostConnection (memPostList posts (postFilterToRepo pf pg)) pg
      (memPostCount posts (postFilterToRepo pf pg) : Int),
    buildCommentConnection
      (memCommentList comments (commentFilterToRepo cf pg)) pg
      (memCommentCount comments (commentFilterToRepo cf pg) : Int),
    ?_, ?_, ?_, ?_, ?_, ?_, ?_, ?_⟩
  · unfold listPostsMem
    rw [hval]
  · unfold listCommentsMem
    rw [hval]
  · intro hle
    by_cases h0 : memPostList posts (postFilterToRepo pf pg) = []
    · rw [buildPostConnection_empty pg _ h0]
    · have hpos : 0 < (memPostList posts (postFilterToRepo pf pg)).length :=
        List.length_pos.mpr h0
      rw [buildPostConnection_hasNext hfirst hpos]
      simp only [decide_eq_false_iff_not, not_and]
      intro _
      omega
  · intro hgt hge1
    have hpos : 0 < (memPostList posts (postFilterToRepo pf pg)).length := by
      omega
    constructor
    · rw [buildPostConnection_hasNext hfirst hpos]
      simp only [decide_eq_true_eq]
      constructor <;> omega
    · rw [buildPostConnection_edges, List.length_map]
      omega
  · intro hf
    subst hf
    have h0 : memPostList posts (postFilterToRepo pf pg) = [] := by
      have := hplen
      simp only [Int.toNat_zero, Nat.zero_min, Nat.min_zero] at this
      exact List.length_eq_zero.mp (by omega)
    rw [buildPostConnection_empty pg _ h0]
    exact ⟨rfl, rfl⟩
  · intro hle
    by_cases h0 : memCommentList comments (commentFilterToRepo cf pg) = []
    · rw [buildCommentConnection_empty pg _ h0]
    · have hpos :
          0 < (memCommentList comments (commentFilterToRepo cf pg)).length :=
        List.length_pos.mpr h0
      rw [buildCommentConnection_hasNext hfirst hpos]
      simp only [decide_eq_false_iff_not, not_and]
      intro _
      omega
  · intro hgt hge1
    have hpos :
        0 < (memCommentList comments (commentFilterToRepo cf pg)).length := by
      omega
    constructor
    · rw [buildCommentConnection_hasNext hfirst hpos]
      simp only [decide_eq_true_eq]
      constructor <;> omega
    · rw [buildCommentConnection_edges, List.length_map]
      omega
  · intro hf
    subst hf
    have h0 : memCommentList comments (commentFilterToRepo cf pg) = [] := by
      have := hclen
      simp only [Int.toNat_zero, Nat.zero_min, Nat.min_zero] at this
      exact List.length_eq_zero.mp (by omega)
    rw [buildCommentConnection_empty pg _ h0]
    exact ⟨rfl, rfl⟩

/-- Witness for C7's amended theorem at `first = 1` over one post. -/
theorem c7_witness :
    ∃ pc cc,
      listPostsMem [bigPost] ⟨none, none⟩ ⟨some 1, none, none, none⟩ =
        .ok pc ∧
      listCommentsMem [] ⟨none, none, none, none⟩
        ⟨some 1, none, none, none⟩ = .ok cc ∧
      ((memPostCount [bigPost]
          (postFilterToRepo ⟨none, none⟩ ⟨some 1, none, none, none⟩) : Int) ≤ 1 →
        pc.pageInfo.hasNextPage = false) ∧
      ((memPostCount [bigPost]
          (postFilterToRepo ⟨none, none⟩ ⟨some 1, none, none, none⟩) : Int) > 1 →
        (1 : Int) ≤ 1 → pc.pageInfo.hasNextPage = true ∧
          (pc.edges.length : Int) = 1) ∧
      ((1 : Int) = 0 → pc.edges = [] ∧ pc.pageInfo = ⟨false, false, none, none⟩) ∧
      ((memCommentCount []
          (commentFilterToRepo ⟨none, none, none, none⟩
            ⟨some 1, none, none, none⟩) : Int) ≤ 1 →
        cc.pageInfo.hasNextPage = false) ∧
      ((memCommentCount []
          (commentFilterToRepo ⟨none, none, none, none⟩
            ⟨some 1, none, none, none⟩) : Int) > 1 →
        (1 : Int) ≤ 1 → cc.pageInfo.hasNextPage = true ∧
          (cc.edges.length : Int) = 1) ∧
      ((1 : Int) = 0 → cc.edges = [] ∧ cc.pageInfo = ⟨false, false, none, none⟩) :=
  c7_amended_has_next_page [bigPost] [] ⟨none, none⟩ ⟨none, none, none, none⟩
    ⟨some 1, none, none, none⟩ 1 rfl rfl (by decide) (by decide)

/-- `model.CommentSubscriptionPayload`. -/
structure CommentSubscriptionPayload where
  postId : UUID
  comment : Option Comment
  actionType : String
deriving DecidableEq, Repr

/-- A buffered Go channel of subscription payloads: the undelivered
buffer and the closed flag.  (The capacity, 100 in the service, only
matters to `publish`, which no statement below needs.) -/
structure Chan where
  buffer : List CommentSubscriptionPayload
  closed : Bool
deriving DecidableEq, Repr

/-- `subscription.Subscriber`. -/
structure Subscriber where
  id : String
  postId : UUID
  ch : Chan
  createdAt : Int
  lastSeen : Int
deriving DecidableEq, Repr

/-- `subscription.SubscriptionMetrics`. -/
structure SubscriptionMetrics where
  totalSubscribers : Int
  activeConnections : List (UUID × Nat)
  messagesSent : Int
  messagesDropped : Int
  subscriptionsTotal : Int
deriving DecidableEq, Repr

/-- The notifier's registry (post id → subscribers) and metrics. -/
structure NotifState where
  subscribers : List (UUID × List Subscriber)
  metrics : SubscriptionMetrics
deriving DecidableEq, Repr

/-- `subscription.Service.safeCloseChannel`: a `select` with a receive
case and a `close` default.  A receive is ready exactly when the
buffer holds a payload or the channel is already closed; Go's `select`
prefers a ready case over `default`, so a channel holding an
undelivered buffered payload is *received from* (one payload is
dropped) and is NOT closed.  Only an empty open channel reaches the
`close` in the default case.  The `recover()` wrapper never fires
here, since the `close` is only reached on an open channel. -/
def safeCloseChannel (ch : Chan) : Chan :=
  match ch.buffer with
  | _ :: rest => { ch with buffer := rest }
  | [] => if ch.closed then ch else { ch with closed := true }

/-- `subscription.Service.Close`: run `safeCloseChannel` on every
registered subscriber channel, clear the registry, zero
`TotalSubscribers`, reset `ActiveConnections`.  The second component
is the post-shutdown state of each previously registered subscriber's
channel — the view a caller still holding the stream observes. -/
def closeNotif (st : NotifState) : NotifState × List (String × Chan) :=
  (⟨[], { st.metrics with totalSubscribers := 0, activeConnections := [] }⟩,
   (st.subscribers.map
     (fun b => b.2.map (fun s => (s.id, safeCloseChannel s.ch)))).flatten)

/-- A sample CREATED payload. -/
def p0 : CommentSubscriptionPayload := ⟨uuid1, none, "CREATED"⟩

/-- One registered subscriber on post `uuid1` whose channel still
buffers one undelivered payload at shutdown time. -/
def st0 : NotifState :=
  ⟨[(uuid1, [⟨"sub-1", uuid1, ⟨[p0], false⟩, 0, 0⟩])],
   ⟨1, [(uuid1, 1)], 0, 0, 1⟩⟩

/-- C4.  After `Close()`, `TotalSubscribers` is 0 as claimed, but a
channel that still held an undelivered buffered payload is NOT closed:
`safeCloseChannel`'s `select` receives the buffered payload (its
"already closed" comment is wrong for a non-empty open channel) and
skips the `close`.  Only empty channels are closed (last conjunct
shows the boundary).  This refutes the claim's "including channels
that still hold undelivered buffered payloads". -/
theorem c4_close_leaves_buffered_channel_open :
    (closeNotif st0).1.metrics.totalSubscribers = 0 ∧
    (closeNotif st0).2 = [("sub-1", ⟨[], false⟩)] ∧
    (∀ sc ∈ (closeNotif st0).2, sc.2.closed = false) ∧
    safeCloseChannel ⟨[p0], false⟩ = ⟨[], false⟩ ∧
    safeCloseChannel ⟨[], false⟩ = ⟨[], true⟩ := by
  refine ⟨rfl, rfl, ?_, rfl, rfl⟩
  decide

/-- The Base64 table maps back: `b64Val (b64Char v) = some v` below 64. -/
theorem b64Val_b64Char : ∀ v < 64, b64Val (b64Char v) = some v := by decide

/-- No alphabet character is the padding byte. -/
theorem b64Char_ne_61 : ∀ v < 64, b64Char v ≠ 61 := by decide

/-- `(r * k + s) / k = r + s / k`. -/
theorem addMulDiv (r s k : Nat) (hk : 0 < k) : (r * k + s) / k = r + s / k := by
  rw [Nat.mul_comm, Nat.add_comm, Nat.add_mul_div_left _ _ hk]
  omega

/-- `(r * k + s) % k = s % k`. -/
theorem addMulMod (r s k : Nat) : (r * k + s) % k = s % k := by
  rw [Nat.mul_comm, Nat.add_comm, Nat.add_mul_mod_self_left]

/-- First byte of a quantum is recovered. -/
theorem b64_rc1 (a : Nat) : a / 4 * 4 + a % 4 * 16 / 16 = a := by
  rw [Nat.mul_div_cancel _ (by norm_num : 0 < 16)]
  omega

/-- First byte of a two-byte quantum is recovered. -/
theorem b64_rc2 (a b : Nat) (hb : b < 256) :
    a / 4 * 4 + (a % 4 * 16 + b / 16) / 16 = a := by
  rw [addMulDiv _ _ _ (by norm_num)]
  have h0 : b / 16 / 16 = 0 := by omega
  rw [h0]
  omega

/-- Second byte of a quantum is recovered. -/
theorem b64_rc3 (a b c : Nat) (hb : b < 256) (hc : c < 256) :
    (a % 4 * 16 + b / 16) % 16 * 16 + (b % 16 * 4 + c / 64) / 4 = b := by
  rw [addMulMod, addMulDiv _ _ _ (by norm_num)]
  have h1 : b / 16 % 16 = b / 16 := by omega
  have h2 : c / 64 / 4 = 0 := by omega
  rw [h1, h2]
  omega

/-- Third byte of a quantum is recovered. -/
theorem b64_rc4 (b c : Nat) (hc : c < 256) :
    (b % 16 * 4 + c / 64) % 4 * 64 + c % 64 = c := by
  rw [addMulMod]
  have h1 : c / 64 % 4 = c / 64 := by omega
  rw [h1]
  omega

/-- Second sextet of a two-byte tail is recovered (`s = b % 16 * 4`). -/
theorem b64_rc5 (a b : Nat) (hb : b < 256) :
    (a % 4 * 16 + b / 16) % 16 * 16 + b % 16 * 4 / 4 = b := by
  rw [addMulMod, Nat.mul_div_cancel _ (by norm_num : 0 < 4)]
  have h1 : b / 16 % 16 = b / 16 := by omega
  rw [h1]
  omega

/-- `base64.StdEncoding` round trip: decoding an encoding of bytes
yields the bytes back. -/
theorem base64_round_trip :
    ∀ (l : List Nat), (∀ b ∈ l, b < 256) →
      base64Decode (base64Encode l) = some l
  | [] => fun _ => rfl
  | [a] => fun h => by
    have ha : a < 256 := h a (by simp)
    have h1 := b64Val_b64Char (a / 4) (by omega)
    have h2 := b64Val_b64Char (a % 4 * 16) (by omega)
    simp only [base64Encode, base64Decode, h1, h2, if_true]
    rw [b64_rc1 a]
    simp
  | [a, b] => fun h => by
    have ha : a < 256 := h a (by simp)
    have hb : b < 256 := h b (by simp)
    have h1 := b64Val_b64Char (a / 4) (by omega)
    have h2 := b64Val_b64Char (a % 4 * 16 + b / 16) (by omega)
    have h3 := b64Val_b64Char (b % 16 * 4) (by omega)
    have hne3 := b64Char_ne_61 (b % 16 * 4) (by omega)
    simp only [base64Encode, base64Decode, h1, h2]
    rw [if_neg hne3, h3]
    dsimp only
    rw [b64_rc2 a b hb, b64_rc5 a b hb]
    simp
  | a :: b :: c :: rest => fun h => by
    have ha : a < 256 := h a (by simp)
    have hb : b < 256 := h b (by simp)
    have hc : c < 256 := h c (by simp)
    have h1 := b64Val_b64Char (a / 4) (by omega)
    have h2 := b64Val_b64Char (a % 4 * 16 + b / 16) (by omega)
    have h3 := b64Val_b64Char (b % 16 * 4 + c / 64) (by omega)
    have h4 := b64Val_b64Char (c % 64) (by omega)
    have hne3 := b64Char_ne_61 (b % 16 * 4 + c / 64) (by omega)
    have hne4 := b64Char_ne_61 (c % 64) (by omega)
    have hrec := base64_round_trip rest (fun x hx => h x (by simp [hx]))
    simp only [base64Encode, base64Decode, h1, h2]
    rw [if_neg hne3, h3]
    dsimp only
    rw [if_neg hne4, h4]
    dsimp only
    rw [hrec]
    dsimp only
    rw [b64_rc2 a b hb, b64_rc3 a b c hb hc, b64_rc4 b c hc]

/-- Value of little-endian decimal digit bytes. -/
def ofDigitsRev : List Nat → Nat
  | [] => 0
  | d :: ds => (d - 48) + 10 * ofDigitsRev ds

/-- With enough fuel, `natDecRevAux` emits digit bytes whose
little-endian value is the input, and at least one digit. -/
theorem natDecRevAux_spec :
    ∀ fuel n, n < fuel →
      (∀ d ∈ natDecRevAux fuel n, 48 ≤ d ∧ d ≤ 57) ∧
      ofDigitsRev (natDecRevAux fuel n) = n ∧ natDecRevAux fuel n ≠ [] := by
  intro fuel
  induction fuel with
  | zero =>
    intro n hn
    omega
  | succ fuel ih =>
    intro n hn
    unfold natDecRevAux
    by_cases h10 : n < 10
    · rw [if_pos h10]
      refine ⟨?_, ?_, by simp⟩
      · intro d hd
        simp only [List.mem_singleton] at hd
        omega
      · simp only [ofDigitsRev]
        omega
    · rw [if_neg h10]
      have hrec := ih (n / 10) (by omega)
      refine ⟨?_, ?_, by simp⟩
      · intro d hd
        rcases List.mem_cons.mp hd with h | h
        · omega
        · exact hrec.1 d h
      · simp only [ofDigitsRev]
        rw [hrec.2.1]
        omega

/-- Folding the big-endian digit value over a reversed list computes
the little-endian value. -/
theorem digitsVal_reverse :
    ∀ ds : List Nat, digitsVal ds.reverse = ofDigitsRev ds := by
  have hfold : ∀ ds : List Nat,
      ds.foldr (fun d acc => acc * 10 + (d - 48)) 0 = ofDigitsRev ds := by
    intro ds
    induction ds with
    | nil => rfl
    | cons d ds ih =>
      simp only [List.foldr_cons, ofDigitsRev, ih]
      omega
  intro ds
  unfold digitsVal
  rw [List.foldl_reverse]
  exact hfold ds

/-- `natDec` produces a non-empty big-endian digit string of value `n`. -/
theorem natDec_spec (n : Nat) :
    (∀ d ∈ natDec n, 48 ≤ d ∧ d ≤ 57) ∧ digitsVal (natDec n) = n ∧
      natDec n ≠ [] := by
  have h := natDecRevAux_spec (n + 1) n (by omega)
  unfold natDec
  refine ⟨?_, ?_, ?_⟩
  · intro d hd
    exact h.1 d (List.mem_reverse.mp hd)
  · rw [digitsVal_reverse]
    exact h.2.1
  · simp only [ne_eq, List.reverse_eq_nil_iff]
    exact h.2.2

/-- `strconv.ParseInt` inverts `fmt.Sprintf("%d", ·)` on int64 values. -/
theorem goParseInt64_fmtInt (i : Int) (hlo : -(2 ^ 63) ≤ i)
    (hhi : i < 2 ^ 63) : goParseInt64 (fmtInt i) = some i := by
  by_cases hneg : i < 0
  · have hspec := natDec_spec i.natAbs
    have hall : allDigits (natDec i.natAbs) = true := by
      rw [allDigits, List.all_eq_true]
      intro x hx
      have := hspec.1 x hx
      simp only [Bool.and_eq_true, decide_eq_true_eq]
      omega
    unfold fmtInt
    rw [if_pos hneg]
    unfold goParseInt64
    dsimp only
    rw [if_pos (Or.inl rfl : (45 : Nat) = 45 ∨ (45 : Nat) = 43)]
    rw [if_neg hspec.2.2, hall]
    simp only [Bool.not_true, Bool.false_eq_true, if_false]
    rw [if_pos (by decide : decide True = true)]
    rw [hspec.2.1, if_pos (by omega)]
    simp only [Option.some.injEq]
    omega
  · have hspec := natDec_spec i.toNat
    rcases hd : natDec i.toNat with _ | ⟨d, ds⟩
    · exact absurd hd hspec.2.2
    rw [hd] at hspec
    have hdd : 48 ≤ d ∧ d ≤ 57 := hspec.1 d (by simp)
    have hall : allDigits (d :: ds) = true := by
      rw [allDigits, List.all_eq_true]
      intro x hx
      have := hspec.1 x hx
      simp only [Bool.and_eq_true, decide_eq_true_eq]
      omega
    unfold fmtInt
    rw [if_neg hneg, hd]
    unfold goParseInt64
    dsimp only
    rw [if_neg (show ¬(d = 45 ∨ d = 43) by omega)]
    rw [if_neg (show ¬(d :: ds = []) by simp), hall]
    simp only [Bool.not_true, Bool.false_eq_true, if_false]
    rw [if_neg (show ¬(decide (d = 45) = true) by
      simp only [decide_eq_true_eq]
      omega)]
    rw [hspec.2.1, if_pos (by omega)]
    simp only [Option.some.injEq]
    omega

/-- Hex digits map back below 16. -/
theorem hexVal_hexDigit : ∀ v < 16, hexVal (hexDigit v) = some v := by decide

/-- A byte's hex pair parses back to the byte. -/
theorem hexPairVal_hexPair (b : Nat) (hb : b < 256) :
    hexPairVal (hexDigit (b / 16)) (hexDigit (b % 16)) = some b := by
  unfold hexPairVal
  rw [hexVal_hexDigit _ (by omega), hexVal_hexDigit _ (by omega)]
  dsimp only
  simp only [Option.some.injEq]
  omega

/-- `uuid.Parse` inverts `uuid.String` on 16-byte values. -/
theorem uuidParse_uuidToString
    (b0 b1 b2 b3 b4 b5 b6 b7 b8 b9 b10 b11 b12 b13 b14 b15 : Nat)
    (h0 : b0 < 256) (h1 : b1 < 256) (h2 : b2 < 256) (h3 : b3 < 256)
    (h4 : b4 < 256) (h5 : b5 < 256) (h6 : b6 < 256) (h7 : b7 < 256)
    (h8 : b8 < 256) (h9 : b9 < 256) (h10 : b10 < 256) (h11 : b11 < 256)
    (h12 : b12 < 256) (h13 : b13 < 256) (h14 : b14 < 256)
    (h15 : b15 < 256) :
    uuidParse (uuidToString
        [b0, b1, b2, b3, b4, b5, b6, b7, b8, b9, b10, b11, b12, b13, b14,
          b15]) =
      some [b0, b1, b2, b3, b4, b5, b6, b7, b8, b9, b10, b11, b12, b13, b14,
        b15] := by
  simp only [uuidToString, hexPair, List.cons_append, List.nil_append]
  simp only [uuidParse]
  rw [if_pos ⟨trivial, trivial, trivial, trivial⟩]
  rw [hexPairVal_hexPair b0 h0, hexPairVal_hexPair b1 h1,
    hexPairVal_hexPair b2 h2, hexPairVal_hexPair b3 h3,
    hexPairVal_hexPair b4 h4, hexPairVal_hexPair b5 h5,
    hexPairVal_hexPair b6 h6, hexPairVal_hexPair b7 h7,
    hexPairVal_hexPair b8 h8, hexPairVal_hexPair b9 h9,
    hexPairVal_hexPair b10 h10, hexPairVal_hexPair b11 h11,
    hexPairVal_hexPair b12 h12, hexPairVal_hexPair b13 h13,
    hexPairVal_hexPair b14 h14, hexPairVal_hexPair b15 h15]

/-- Every byte of the decimal rendering is a digit or the minus sign. -/
theorem fmtInt_bytes (i : Int) :
    ∀ x ∈ fmtInt i, x = 45 ∨ (48 ≤ x ∧ x ≤ 57) := by
  intro x hx
  unfold fmtInt at hx
  split at hx
  · rcases List.mem_cons.mp hx with h | h
    · exact Or.inl h
    · exact Or.inr ((natDec_spec _).1 x h)
  · exact Or.inr ((natDec_spec _).1 x hx)

/-- Every byte of a hex digit rendering lies below 256 and is not the
underscore (a hex digit is in 48..57 or 97..102). -/
theorem hexDigit_bytes (v : Nat) (hv : v < 16) :
    hexDigit v < 256 ∧ hexDigit v ≠ 95 := by
  unfold hexDigit
  split <;> omega

set_option maxHeartbeats 1000000 in
/-- Bytes of the canonical uuid string of a 16-byte value: below 256
and never the underscore. -/
theorem uuidToString_bytes
    (b0 b1 b2 b3 b4 b5 b6 b7 b8 b9 b10 b11 b12 b13 b14 b15 : Nat)
    (h0 : b0 < 256) (h1 : b1 < 256) (h2 : b2 < 256) (h3 : b3 < 256)
    (h4 : b4 < 256) (h5 : b5 < 256) (h6 : b6 < 256) (h7 : b7 < 256)
    (h8 : b8 < 256) (h9 : b9 < 256) (h10 : b10 < 256) (h11 : b11 < 256)
    (h12 : b12 < 256) (h13 : b13 < 256) (h14 : b14 < 256)
    (h15 : b15 < 256) :
    ∀ x ∈ uuidToString
        [b0, b1, b2, b3, b4, b5, b6, b7, b8, b9, b10, b11, b12, b13, b14,
          b15], x < 256 ∧ x ≠ 95 := by
  have hhex : ∀ v, v < 16 → (hexDigit v < 256 ∧ hexDigit v ≠ 95) := by
    intro v hv
    unfold hexDigit
    split <;> omega
  simp only [uuidToString, hexPair, List.cons_append, List.nil_append,
    List.forall_mem_cons, List.not_mem_nil, false_implies, implies_true,
    and_true]
  exact ⟨hhex _ (by omega), hhex _ (by omega), hhex _ (by omega),
    hhex _ (by omega), hhex _ (by omega), hhex _ (by omega),
    hhex _ (by omega), hhex _ (by omega), by omega,
    hhex _ (by omega), hhex _ (by omega), hhex _ (by omega),
    hhex _ (by omega), by omega,
    hhex _ (by omega), hhex _ (by omega), hhex _ (by omega),
    hhex _ (by omega), by omega,
    hhex _ (by omega), hhex _ (by omega), hhex _ (by omega),
    hhex _ (by omega), by omega,
    hhex _ (by omega), hhex _ (by omega), hhex _ (by omega),
    hhex _ (by omega), hhex _ (by omega), hhex _ (by omega),
    hhex _ (by omega), hhex _ (by omega), hhex _ (by omega),
    hhex _ (by omega), hhex _ (by omega), hhex _ (by omega)⟩

/-- `goIndex` finds the separator right after a separator-free parts
of the payload. -/
theorem goIndex_append_95 (d u : List Nat) (hd : ∀ x ∈ d, x ≠ 95) :
    goIndex (d ++ 95 :: u) 95 = some d.length := by
  induction d with
  | nil => simp [goIndex]
  | cons b d ih =>
    have hb : b ≠ 95 := hd b (by simp)
    simp only [List.cons_append, goIndex, if_neg hb, List.append_eq]
    rw [ih (fun x hx => hd x (by simp [hx]))]
    rfl

/-- `goIndex` returns `none` when the byte is absent. -/
theorem goIndex_eq_none (l : List Nat) (t : Nat) (h : t ∉ l) :
    goIndex l t = none := by
  induction l with
  | nil => rfl
  | cons b l ih =>
    have hb : b ≠ t := by
      intro he
      exact h (by simp [he])
    simp only [goIndex, if_neg hb]
    rw [ih (fun hx => h (by simp [hx]))]
    rfl

/-- Dropping past the separator returns exactly the id part. -/
theorem drop_sep (d u : List Nat) :
    (d ++ 95 :: u).drop (d.length + 1) = u := by
  rw [← List.drop_drop]
  rw [List.drop_left]
  rfl

/-- C8: for every int64 unix-seconds timestamp and every 16-byte
entity id, decoding the cursor produced by encoding them — Base64
(standard alphabet, padded) of the ASCII payload
`<unix_seconds>_<canonical uuid string>` — returns exactly the
timestamp and the id. -/
theorem c8_cursor_round_trip (ts : Int)
    (b0 b1 b2 b3 b4 b5 b6 b7 b8 b9 b10 b11 b12 b13 b14 b15 : Nat)
    (hlo : -(2 ^ 63) ≤ ts) (hhi : ts < 2 ^ 63)
    (h0 : b0 < 256) (h1 : b1 < 256) (h2 : b2 < 256) (h3 : b3 < 256)
    (h4 : b4 < 256) (h5 : b5 < 256) (h6 : b6 < 256) (h7 : b7 < 256)
    (h8 : b8 < 256) (h9 : b9 < 256) (h10 : b10 < 256) (h11 : b11 < 256)
    (h12 : b12 < 256) (h13 : b13 < 256) (h14 : b14 < 256)
    (h15 : b15 < 256) :
    decodeCursor (encodeCursor ts
        [b0, b1, b2, b3, b4, b5, b6, b7, b8, b9, b10, b11, b12, b13, b14,
          b15]) =
      .ok ts
        [b0, b1, b2, b3, b4, b5, b6, b7, b8, b9, b10, b11, b12, b13, b14,
          b15] := by
  have hu := uuidToString_bytes b0 b1 b2 b3 b4 b5 b6 b7 b8 b9 b10 b11 b12
    b13 b14 b15 h0 h1 h2 h3 h4 h5 h6 h7 h8 h9 h10 h11 h12 h13 h14 h15
  have hf := fmtInt_bytes ts
  have hpay : ∀ x ∈ fmtInt ts ++ 95 ::
      uuidToString
        [b0, b1, b2, b3, b4, b5, b6, b7, b8, b9, b10, b11, b12, b13, b14,
          b15], x < 256 := by
    intro x hx
    rcases List.mem_append.mp hx with h | h
    · rcases hf x h with h | h <;> omega
    · rcases List.mem_cons.mp h with h | h
      · omega
      · exact (hu x h).1
  have henc : encodeCursor ts
      [b0, b1, b2, b3, b4, b5, b6, b7, b8, b9, b10, b11, b12, b13, b14,
        b15] =
      base64Encode (fmtInt ts ++ 95 ::
        uuidToString
          [b0, b1, b2, b3, b4, b5, b6, b7, b8, b9, b10, b11, b12, b13, b14,
            b15]) := by
    unfold encodeCursor
    rw [List.append_assoc, List.singleton_append]
  rw [henc]
  unfold decodeCursor
  rw [base64_round_trip _ hpay]
  dsimp only
  rw [goIndex_append_95 (fmtInt ts) _
    (fun x hx => by rcases hf x hx with h | h <;> omega)]
  dsimp only
  rw [List.take_left, goParseInt64_fmtInt ts hlo hhi]
  dsimp only
  rw [drop_sep, uuidParse_uuidToString b0 b1 b2 b3 b4 b5 b6 b7 b8 b9 b10
    b11 b12 b13 b14 b15 h0 h1 h2 h3 h4 h5 h6 h7 h8 h9 h10 h11 h12 h13 h14
    h15]

/-- C8 witness: the round trip at timestamp 1700000000 and the sample
uuid `00000000-0000-0000-0000-000000000001`. -/
theorem c8_witness :
    (-(2 ^ 63) : Int) ≤ 1700000000 ∧ (1700000000 : Int) < 2 ^ 63 ∧
    (1 : Nat) < 256 ∧
    decodeCursor (encodeCursor 1700000000
        [0, 0, 0, 0, 0, 0, 0, 0, 0, 0, 0, 0, 0, 0, 0, 1]) =
      .ok 1700000000 [0, 0, 0, 0, 0, 0, 0, 0, 0, 0, 0, 0, 0, 0, 0, 1] :=
  ⟨by decide, by decide, by decide,
    c8_cursor_round_trip 1700000000 0 0 0 0 0 0 0 0 0 0 0 0 0 0 0 1
      (by decide) (by decide) (by decide) (by decide) (by decide)
      (by decide) (by decide) (by decide) (by decide) (by decide)
      (by decide) (by decide) (by decide) (by decide) (by decide)
      (by decide) (by decide) (by decide)⟩

/-- C3: a well-formed Base64 blob whose decoded payload contains no
underscore makes `decodeCursor` panic (the source slices
`parts[:strings.Index(parts, "_")]` with index -1) instead of
returning an invalid-cursor error. -/
theorem c3_separator_free_cursor_panics (payload : List Nat)
    (hb : ∀ x ∈ payload, x < 256) (hsep : 95 ∉ payload) :
    decodeCursor (base64Encode payload) = .panicked := by
  unfold decodeCursor
  rw [base64_round_trip payload hb]
  dsimp only
  rw [goIndex_eq_none payload 95 hsep]

/-- C3 witness: the cursor `YWJj` (Base64 of `abc`) panics the
decoder. -/
theorem c3_witness :
    (∀ x ∈ [97, 98, 99], x < 256) ∧ (95 : Nat) ∉ [97, 98, 99] ∧
    decodeCursor (base64Encode [97, 98, 99]) = .panicked :=
  ⟨by decide, by decide,
    c3_separator_free_cursor_panics [97, 98, 99] (by decide) (by decide)⟩

/-- A comment reaches the forest `BuildCommentsTree` returns exactly
when its parent chain stays inside the list and ends at a root
(`ParentID` nil); `fuel` bounds the number of upward steps, and
`length` of the input always suffices on acyclic id-distinct input. -/
def rootedIn (L : List Comment) : Nat → Comment → Bool
  | 0, _ => false
  | fuel + 1, c =>
    match c.parentId with
    | none => true
    | some pid =>
      match L.find? (fun p => p.id == pid) with
      | none => false
      | some p => rootedIn L fuel p

/-- Ancestor of a comment at a given height, following parent
references through the list the way `BuildCommentsTree`'s map lookup
resolves them. -/
def ancAt (L : List Comment) : Nat → Comment → Option Comment
  | 0, c => some c
  | k + 1, c =>
    match c.parentId with
    | none => none
    | some pid =>
      match L.find? (fun p => p.id == pid) with
      | none => none
      | some q => ancAt L k q

/-- `ChainFrom L p x d`: starting at `p` and following `d` child
attachments of `BuildCommentsTree` (each child a list member whose
parent reference names the node above it) reaches `x`. -/
inductive ChainFrom (L : List Comment) : Comment → Comment → Nat → Prop
  | refl (c : Comment) : ChainFrom L c c 0
  | step {p c x : Comment} {d : Nat} : c ∈ L → c.parentId = some p.id →
      ChainFrom L c x d → ChainFrom L p x (d + 1)

/-- A chain from a list member stays in the list. -/
theorem chain_mem {L : List Comment} {p x : Comment} {d : Nat}
    (h : ChainFrom L p x d) : p ∈ L → x ∈ L := by
  induction h with
  | refl c => exact id
  | step hc hpar hch ih => exact fun _ => ih hc

/-- A chain extends downward by one attached child. -/
theorem chain_snoc {L : List Comment} {p q c : Comment} {d : Nat}
    (h : ChainFrom L p q d) : c ∈ L → c.parentId = some q.id →
      ChainFrom L p c (d + 1) := by
  induction h with
  | refl r => exact fun hc hpar => ChainFrom.step hc hpar (ChainFrom.refl c)
  | step hcL hparL hch ih =>
    exact fun hc hpar => ChainFrom.step hcL hparL (ih hc hpar)

/-- Along a chain a rank function witnessing acyclicity strictly
increases, step by step. -/
theorem chain_rank {L : List Comment} {rank : Comment → Nat}
    (hrank : ∀ c ∈ L, ∀ p ∈ L, c.parentId = some p.id → rank p < rank c)
    {p x : Comment} {d : Nat} (h : ChainFrom L p x d) :
    p ∈ L → rank p + d ≤ rank x := by
  induction h with
  | refl c =>
    intro _
    omega
  | @step p c x d hc hpar hch ih =>
    intro hp
    have h1 := hrank c hc p hp hpar
    have h2 := ih hc
    omega

/-- The chain nodes below a list member form a rank-increasing list
inside the list, so a chain is shorter than the list. -/
theorem chain_nodes {L : List Comment} {rank : Comment → Nat}
    (hrank : ∀ c ∈ L, ∀ p ∈ L, c.parentId = some p.id → rank p < rank c)
    {p x : Comment} {d : Nat} (h : ChainFrom L p x d) :
    p ∈ L → ∃ ns : List Comment,
      (p :: ns).Pairwise (fun a b => rank a < rank b) ∧
      (∀ y ∈ p :: ns, y ∈ L) ∧ ns.length = d := by
  induction h with
  | refl c =>
    intro hp
    refine ⟨[], List.pairwise_singleton _ _, ?_, rfl⟩
    intro y hy
    rw [List.mem_singleton.mp hy]
    exact hp
  | @step p c x d hc hpar hch ih =>
    intro hp
    rcases ih hc with ⟨ns, hpw, hmem, hlen⟩
    refine ⟨c :: ns, ?_, ?_, by simp [hlen]⟩
    · refine List.Pairwise.cons ?_ hpw
      intro b hb
      rcases List.mem_cons.mp hb with hb | hb
      · rw [hb]
        exact hrank c hc p hp hpar
      · exact lt_trans (hrank c hc p hp hpar)
          ((List.pairwise_cons.mp hpw).1 b hb)
    · intro y hy
      rcases List.mem_cons.mp hy with hy | hy
      · rw [hy]
        exact hp
      · exact hmem y hy

/-- On acyclic input a chain is strictly shorter than the list. -/
theorem chain_bound {L : List Comment} {rank : Comment → Nat}
    (hrank : ∀ c ∈ L, ∀ p ∈ L, c.parentId = some p.id → rank p < rank c)
    {p x : Comment} {d : Nat} (h : ChainFrom L p x d) (hp : p ∈ L) :
    d < L.length := by
  rcases chain_nodes hrank h hp with ⟨ns, hpw, hmem, hlen⟩
  have hndup : (p :: ns).Nodup := by
    refine hpw.imp ?_
    intro a b hab he
    rw [he] at hab
    exact lt_irrefl _ hab
  have hle := nodup_subset_length_le hndup (fun y hy => hmem y hy)
  rw [List.length_cons, hlen] at hle
  omega

/-- A chain node at depth at most the fuel appears in the grown tree. -/
theorem chain_grow_mem {L : List Comment} {p x : Comment} {d : Nat}
    (h : ChainFrom L p x d) : ∀ fuel, d ≤ fuel →
      x ∈ flattenTree (growTree L fuel p) := by
  induction h with
  | refl c =>
    intro fuel _
    cases fuel <;> exact List.mem_cons_self _ _
  | @step p c x d hc hpar hch ih =>
    intro fuel hle
    cases fuel with
    | zero => omega
    | succ f =>
      have hxc := ih f (by omega)
      have hcc : c ∈ childrenOf L p := by
        unfold childrenOf
        refine List.mem_filter.mpr ⟨hc, ?_⟩
        rw [hpar]
        simp
      simp only [growTree, flattenTree_node]
      exact List.mem_cons_of_mem _ (mem_flattenForest.mpr
        ⟨growTree L f c, List.mem_map.mpr ⟨c, hcc, rfl⟩, hxc⟩)

/-- Every member of a grown tree lies on a chain below its root. -/
theorem grow_mem_chain (L : List Comment) :
    ∀ fuel (p x : Comment), x ∈ flattenTree (growTree L fuel p) →
      ∃ d, ChainFrom L p x d := by
  intro fuel
  induction fuel with
  | zero =>
    intro p x hx
    simp only [growTree, flattenTree_node] at hx
    rcases List.mem_cons.mp hx with h | h
    · exact ⟨0, by rw [h]; exact ChainFrom.refl p⟩
    · simp [flattenForest] at h
  | succ f ih =>
    intro p x hx
    simp only [growTree, flattenTree_node] at hx
    rcases List.mem_cons.mp hx with h | h
    · exact ⟨0, by rw [h]; exact ChainFrom.refl p⟩
    · rcases mem_flattenForest.mp h with ⟨t, ht, hxt⟩
      rcases List.mem_map.mp ht with ⟨c, hc, hct⟩
      rcases ih c x (hct ▸ hxt) with ⟨d, hch⟩
      unfold childrenOf at hc
      rcases List.mem_filter.mp hc with ⟨hcL, hcp⟩
      have hpar : c.parentId = some p.id := by simpa using hcp
      exact ⟨d + 1, ChainFrom.step hcL hpar hch⟩

/-- With pairwise-distinct ids the map lookup of `BuildCommentsTree`
finds exactly the referenced list member. -/
theorem find_first_of_nodup :
    ∀ (L : List Comment) (q : Comment),
      (L.map (fun c => c.id)).Nodup → q ∈ L →
      L.find? (fun p => p.id == q.id) = some q := by
  intro L
  induction L with
  | nil =>
    intro q _ hq
    cases hq
  | cons a L ih =>
    intro q hnd hq
    rw [List.map_cons, List.nodup_cons] at hnd
    rcases List.mem_cons.mp hq with h | h
    · rw [h]
      exact @List.find?_cons_of_pos Comment (fun p => p.id == a.id) a L
        (by simp)
    · have hane : ¬(a.id == q.id) = true := by
        simp only [beq_iff_eq]
        intro he
        exact hnd.1 (he ▸ List.mem_map.mpr ⟨q, h, rfl⟩)
      rw [@List.find?_cons_of_neg Comment (fun p => p.id == q.id) a L hane]
      exact ih q hnd.2 h

/-- A positive-length chain decomposes at its bottom step. -/
theorem chain_inv_bottom {L : List Comment} :
    ∀ (e : Nat) {p x : Comment}, ChainFrom L p x (e + 1) →
      ∃ q, ChainFrom L p q e ∧ x ∈ L ∧ x.parentId = some q.id := by
  intro e
  induction e with
  | zero =>
    intro p x h
    cases h with
    | step hc hpar hch =>
      cases hch with
      | refl => exact ⟨p, ChainFrom.refl p, hc, hpar⟩
  | succ k ih =>
    intro p x h
    cases h with
    | step hc hpar hch =>
      rcases ih hch with ⟨q, hq, hxL, hxpar⟩
      exact ⟨q, ChainFrom.step hc hpar hq, hxL, hxpar⟩

/-- A chain of a given length determines its top node as the ancestor
of its bottom node at that height. -/
theorem chain_anc {L : List Comment}
    (hnd : (L.map (fun c => c.id)).Nodup) :
    ∀ (d : Nat) {p x : Comment}, ChainFrom L p x d → p ∈ L →
      ancAt L d x = some p := by
  intro d
  induction d with
  | zero =>
    intro p x h hp
    cases h with
    | refl => rfl
  | succ e ih =>
    intro p x h hp
    rcases chain_inv_bottom e h with ⟨q, hq, hxL, hxpar⟩
    have hqL : q ∈ L := chain_mem hq hp
    unfold ancAt
    rw [hxpar]
    dsimp only
    rw [find_first_of_nodup L q hnd hqL]
    dsimp only
    exact ih hq hp

/-- Chains of equal length to the same node have the same top. -/
theorem chain_det {L : List Comment}
    (hnd : (L.map (fun c => c.id)).Nodup) {p q x : Comment} {d : Nat}
    (h1 : ChainFrom L p x d) (h2 : ChainFrom L q x d)
    (hp : p ∈ L) (hq : q ∈ L) : p = q := by
  have e1 := chain_anc hnd d h1 hp
  have e2 := chain_anc hnd d h2 hq
  rw [e1] at e2
  exact Option.some.inj e2

/-- A chain splits at any intermediate height. -/
theorem chain_split {L : List Comment} :
    ∀ (b : Nat) {a : Nat} {p x : Comment}, ChainFrom L p x (a + b) →
      ∃ m, ChainFrom L p m a ∧ ChainFrom L m x b := by
  intro b
  induction b with
  | zero =>
    intro a p x h
    exact ⟨x, h, ChainFrom.refl x⟩
  | succ k ih =>
    intro a p x h
    rcases chain_inv_bottom (a + k) h with ⟨q, hq, hxL, hxpar⟩
    rcases ih hq with ⟨m, hm1, hm2⟩
    exact ⟨m, hm1, chain_snoc hm2 hxL hxpar⟩

/-- A comment the fueled rootedness check accepts sits on a chain
below some root of the list, shorter than the fuel. -/
theorem rootedIn_chain {L : List Comment} :
    ∀ (fuel : Nat) (c : Comment), c ∈ L → rootedIn L fuel c = true →
      ∃ r d, r ∈ L ∧ r.parentId = none ∧ ChainFrom L r c d ∧ d < fuel := by
  intro fuel
  induction fuel with
  | zero =>
    intro c hc hr
    simp [rootedIn] at hr
  | succ f ih =>
    intro c hc hr
    unfold rootedIn at hr
    rcases hp : c.parentId with _ | pid
    · exact ⟨c, 0, hc, hp, ChainFrom.refl c, by omega⟩
    · rw [hp] at hr
      dsimp only at hr
      rcases hf : L.find? (fun p => p.id == pid) with _ | p
      · rw [hf] at hr
        simp at hr
      · rw [hf] at hr
        dsimp only at hr
        have hpL : p ∈ L := List.mem_of_find?_eq_some hf
        have hpid : p.id = pid := by
          have := List.find?_some hf
          simpa using this
        rcases ih p hpL hr with ⟨r, d, hrL, hrroot, hch, hd⟩
        refine ⟨r, d + 1, hrL, hrroot, chain_snoc hch hc ?_, by omega⟩
        rw [hp, hpid]

/-- A comment on a chain below a root passes the rootedness check at
any fuel beyond the chain length. -/
theorem rooted_of_chain {L : List Comment}
    (hnd : (L.map (fun c => c.id)).Nodup) {r : Comment}
    (hrL : r ∈ L) (hroot : r.parentId = none) :
    ∀ (d : Nat) (x : Comment), ChainFrom L r x d → ∀ fuel, d < fuel →
      rootedIn L fuel x = true := by
  intro d
  induction d with
  | zero =>
    intro x h fuel hfuel
    cases h with
    | refl =>
      cases fuel with
      | zero => omega
      | succ f =>
        unfold rootedIn
        rw [hroot]
  | succ e ih =>
    intro x h fuel hfuel
    rcases chain_inv_bottom e h with ⟨q, hq, hxL, hxpar⟩
    have hqL : q ∈ L := chain_mem hq hrL
    cases fuel with
    | zero => omega
    | succ f =>
      unfold rootedIn
      rw [hxpar]
      dsimp only
      rw [find_first_of_nodup L q hnd hqL]
      dsimp only
      exact ih q hq f (by omega)

/-- Two attached children of the same node whose subtree chains meet
cannot differ (acyclic, id-distinct input). -/
theorem sibling_unique {L : List Comment} {rank : Comment → Nat}
    (hnd : (L.map (fun c => c.id)).Nodup)
    (hrank : ∀ c ∈ L, ∀ p ∈ L, c.parentId = some p.id → rank p < rank c)
    {p c1 c2 x : Comment} {d1 d2 : Nat} (hp : p ∈ L)
    (hc1 : c1 ∈ L) (hc2 : c2 ∈ L)
    (hp1 : c1.parentId = some p.id) (hp2 : c2.parentId = some p.id)
    (h1 : ChainFrom L c1 x d1) (h2 : ChainFrom L c2 x d2) : c1 = c2 := by
  have key : ∀ {a b : Nat} {u v : Comment}, u ∈ L → v ∈ L →
      u.parentId = some p.id → v.parentId = some p.id →
      ChainFrom L u x a → ChainFrom L v x b → a < b → False := by
    intro a b u v huL hvL hup hvp hu hv hab
    have HU : ChainFrom L p x (a + 1) := ChainFrom.step huL hup hu
    have HV : ChainFrom L p x (b + 1) := ChainFrom.step hvL hvp hv
    have hsplit : ChainFrom L p x ((b - a) + (a + 1)) := by
      have he : (b - a) + (a + 1) = b + 1 := by omega
      rw [he]
      exact HV
    rcases chain_split (a + 1) hsplit with ⟨m, hm1, hm2⟩
    have hmL : m ∈ L := chain_mem hm1 hp
    have e1 := chain_anc hnd (a + 1) hm2 hmL
    have e2 := chain_anc hnd (a + 1) HU hp
    rw [e2] at e1
    have hmp := Option.some.inj e1
    rw [← hmp] at hm1
    have := chain_rank hrank hm1 hp
    omega
  by_cases hd : d1 = d2
  · rw [hd] at h1
    exact chain_det hnd h1 h2 hc1 hc2
  · rcases Nat.lt_or_ge d1 d2 with hlt | hge
    · exact (key hc1 hc2 hp1 hp2 h1 h2 hlt).elim
    · exact (key hc2 hc1 hp2 hp1 h2 h1 (by omega)).elim

/-- Two roots whose subtree chains meet are the same root. -/
theorem root_unique {L : List Comment}
    (hnd : (L.map (fun c => c.id)).Nodup)
    {r1 r2 x : Comment} {d1 d2 : Nat}
    (hr1 : r1 ∈ L) (hr2 : r2 ∈ L)
    (hn1 : r1.parentId = none) (hn2 : r2.parentId = none)
    (h1 : ChainFrom L r1 x d1) (h2 : ChainFrom L r2 x d2) : r1 = r2 := by
  have key : ∀ {a b : Nat} {u v : Comment}, u ∈ L → v ∈ L →
      u.parentId = none → ChainFrom L u x a → ChainFrom L v x b →
      a < b → False := by
    intro a b u v huL hvL hupar hu hv hab
    have hsplit : ChainFrom L v x ((b - a) + a) := by
      have he : (b - a) + a = b := by omega
      rw [he]
      exact hv
    rcases chain_split a hsplit with ⟨m, hm1, hm2⟩
    have hmL : m ∈ L := chain_mem hm1 hvL
    have e1 := chain_anc hnd a hm2 hmL
    have e2 := chain_anc hnd a hu huL
    rw [e2] at e1
    have hmp := Option.some.inj e1
    rw [← hmp] at hm1
    have hba : b - a = (b - a - 1) + 1 := by omega
    rw [hba] at hm1
    rcases chain_inv_bottom _ hm1 with ⟨q, _, _, hpar⟩
    rw [hupar] at hpar
    cases hpar
  by_cases hd : d1 = d2
  · rw [hd] at h1
    exact chain_det hnd h1 h2 hr1 hr2
  · rcases Nat.lt_or_ge d1 d2 with hlt | hge
    · exact (key hr1 hr2 hn1 h1 h2 hlt).elim
    · exact (key hr2 hr1 hn2 h2 h1 (by omega)).elim

/-- Occurrences in a flattened mapped forest sum over the trees. -/
theorem count_flattenForest_map (x : Comment) (g : Comment → CommentTree) :
    ∀ cs : List Comment, List.count x (flattenForest (cs.map g)) =
      (cs.map (fun c => List.count x (flattenTree (g c)))).sum := by
  intro cs
  induction cs with
  | nil => simp [flattenForest]
  | cons c cs ih =>
    simp only [List.map_cons, flattenForest, List.count_append,
      List.sum_cons, ih]

/-- A sum of zero-or-one terms over a duplicate-free list is at most
one when at most one element contributes. -/
theorem sum_counts_le_one {f : Comment → Nat} :
    ∀ cs : List Comment, cs.Nodup → (∀ c ∈ cs, f c ≤ 1) →
      (∀ c1 ∈ cs, ∀ c2 ∈ cs, 1 ≤ f c1 → 1 ≤ f c2 → c1 = c2) →
      (cs.map f).sum ≤ 1 := by
  intro cs
  induction cs with
  | nil =>
    intro _ _ _
    simp
  | cons c cs ih =>
    intro hnd hle hdis
    rw [List.map_cons, List.sum_cons]
    by_cases hc : 1 ≤ f c
    · have hz : ∀ c' ∈ cs, f c' = 0 := by
        intro c' hc'
        by_contra hne
        have h1 : 1 ≤ f c' := by omega
        have he := hdis c (by simp) c' (by simp [hc']) hc h1
        rw [he] at hnd
        exact (List.nodup_cons.mp hnd).1 hc'
      have hsum : (cs.map f).sum = 0 := by
        apply List.sum_eq_zero
        intro y hy
        rcases List.mem_map.mp hy with ⟨c', hc', hcy⟩
        rw [← hcy]
        exact hz c' hc'
      have := hle c (by simp)
      omega
    · have hrec := ih (List.nodup_cons.mp hnd).2
        (fun c' h => hle c' (by simp [h]))
        (fun c1 h1 c2 h2 => hdis c1 (by simp [h1]) c2 (by simp [h2]))
      omega

/-- A node occurs at most once in each grown subtree of a list member
(acyclic, id-distinct input). -/
theorem subtree_count_le_one {L : List Comment} {rank : Comment → Nat}
    (hnd : (L.map (fun c => c.id)).Nodup)
    (hrank : ∀ c ∈ L, ∀ p ∈ L, c.parentId = some p.id → rank p < rank c)
    (x : Comment) :
    ∀ fuel p, p ∈ L →
      List.count x (flattenTree (growTree L fuel p)) ≤ 1 := by
  intro fuel
  induction fuel with
  | zero =>
    intro p hp
    calc List.count x (flattenTree (growTree L 0 p))
        ≤ (flattenTree (growTree L 0 p)).length := List.count_le_length x _
      _ ≤ 1 := by simp [growTree, flattenTree_node, flattenForest]
  | succ f ih =>
    intro p hp
    simp only [growTree, flattenTree_node]
    by_cases hxp : x = p
    · have hS : List.count x (flattenForest ((childrenOf L p).map
          (growTree L f))) = 0 := by
        rw [List.count_eq_zero]
        intro hxm
        rcases mem_flattenForest.mp hxm with ⟨t, ht, hxt⟩
        rcases List.mem_map.mp ht with ⟨c, hc, hct⟩
        rcases grow_mem_chain L f c x (hct ▸ hxt) with ⟨d, hch⟩
        unfold childrenOf at hc
        rcases List.mem_filter.mp hc with ⟨hcL, hcp⟩
        have hpar : c.parentId = some p.id := by simpa using hcp
        have hloop : ChainFrom L p x (d + 1) := ChainFrom.step hcL hpar hch
        have hrk := chain_rank hrank hloop hp
        rw [hxp] at hrk
        omega
      rw [hxp] at hS
      rw [hxp, List.count_cons_self, hS]
    · rw [List.count_cons_of_ne hxp]
      rw [count_flattenForest_map]
      apply sum_counts_le_one
      · unfold childrenOf
        exact (List.Nodup.of_map _ hnd).filter _
      · intro c hc
        unfold childrenOf at hc
        exact ih c (List.mem_filter.mp hc).1
      · intro c1 h1 c2 h2 hcnt1 hcnt2
        have hx1 : x ∈ flattenTree (growTree L f c1) :=
          List.count_pos_iff.mp (Nat.lt_of_lt_of_le (by omega) hcnt1)
        have hx2 : x ∈ flattenTree (growTree L f c2) :=
          List.count_pos_iff.mp (Nat.lt_of_lt_of_le (by omega) hcnt2)
        rcases grow_mem_chain L f c1 x hx1 with ⟨d1, hch1⟩
        rcases grow_mem_chain L f c2 x hx2 with ⟨d2, hch2⟩
        unfold childrenOf at h1 h2
        rcases List.mem_filter.mp h1 with ⟨h1L, h1p⟩
        rcases List.mem_filter.mp h2 with ⟨h2L, h2p⟩
        exact sibling_unique hnd hrank hp h1L h2L (by simpa using h1p)
          (by simpa using h2p) hch1 hch2

/-- The flattened built forest of an acyclic, id-distinct list has no
duplicates. -/
theorem flatten_build_nodup {L : List Comment} {rank : Comment → Nat}
    (hnd : (L.map (fun c => c.id)).Nodup)
    (hrank : ∀ c ∈ L, ∀ p ∈ L, c.parentId = some p.id → rank p < rank c) :
    (flattenForest (buildCommentsTree L)).Nodup := by
  rw [List.nodup_iff_count_le_one]
  intro x
  unfold buildCommentsTree
  rw [count_flattenForest_map]
  apply sum_counts_le_one
  · exact (List.Nodup.of_map _ hnd).filter _
  · intro r hr
    exact subtree_count_le_one hnd hrank x L.length r
      (List.mem_filter.mp hr).1
  · intro r1 h1 r2 h2 hc1 hc2
    have hx1 : x ∈ flattenTree (growTree L L.length r1) :=
      List.count_pos_iff.mp (Nat.lt_of_lt_of_le (by omega) hc1)
    have hx2 : x ∈ flattenTree (growTree L L.length r2) :=
      List.count_pos_iff.mp (Nat.lt_of_lt_of_le (by omega) hc2)
    rcases List.mem_filter.mp h1 with ⟨h1L, h1p⟩
    rcases List.mem_filter.mp h2 with ⟨h2L, h2p⟩
    rcases grow_mem_chain L L.length r1 x hx1 with ⟨d1, hch1⟩
    rcases grow_mem_chain L L.length r2 x hx2 with ⟨d2, hch2⟩
    exact root_unique hnd h1L h2L (by simpa using h1p) (by simpa using h2p)
      hch1 hch2

/-- A comment appears in the flattened built forest exactly when it is
a list member the rootedness check accepts. -/
theorem mem_flatten_build_iff {L : List Comment} {rank : Comment → Nat}
    (hnd : (L.map (fun c => c.id)).Nodup)
    (hrank : ∀ c ∈ L, ∀ p ∈ L, c.parentId = some p.id → rank p < rank c)
    (x : Comment) :
    x ∈ flattenForest (buildCommentsTree L) ↔
      x ∈ L ∧ rootedIn L L.length x = true := by
  constructor
  · intro hx
    refine ⟨flatten_build_subset L x hx, ?_⟩
    rcases mem_flattenForest.mp hx with ⟨t, ht, hxt⟩
    unfold buildCommentsTree at ht
    rcases List.mem_map.mp ht with ⟨r, hr, hrt⟩
    rcases List.mem_filter.mp hr with ⟨hrL, hrpred⟩
    have hrroot : r.parentId = none := by simpa using hrpred
    rcases grow_mem_chain L L.length r x (hrt ▸ hxt) with ⟨d, hch⟩
    have hd : d < L.length := chain_bound hrank hch hrL
    exact rooted_of_chain hnd hrL hrroot d x hch L.length hd
  · rintro ⟨hxL, hroot⟩
    rcases rootedIn_chain L.length x hxL hroot
      with ⟨r, d, hrL, hrroot, hch, hd⟩
    refine mem_flattenForest.mpr
      ⟨growTree L L.length r, ?_, chain_grow_mem hch L.length (by omega)⟩
    unfold buildCommentsTree
    refine List.mem_map.mpr ⟨r, ?_, rfl⟩
    refine List.mem_filter.mpr ⟨hrL, ?_⟩
    rw [hrroot]
    rfl

/-- First comment of the C9 counterexample store: its parent reference
names an id absent from the store. -/
def c9A : Comment :=
  { id := uuid1, postId := uuid4, parentId := some uuid3, content := [97],
    authorId := uuid5, depth := 1, createdAt := 0, updatedAt := 0 }

/-- Second comment of the C9 counterexample store: a child of `c9A`. -/
def c9B : Comment :=
  { id := uuid2, postId := uuid4, parentId := some uuid1, content := [98],
    authorId := uuid5, depth := 2, createdAt := 1, updatedAt := 1 }

/-- The C9 counterexample store: an orphan chain. -/
def c9L : List Comment := [c9A, c9B]

/-- A rank function witnessing acyclicity of the C9 sample stores. -/
def c9rank (c : Comment) : Nat := if c.id = uuid1 then 0 else 1

/-- Root comment of the C9 witness store. -/
def c9W1 : Comment :=
  { id := uuid1, postId := uuid4, parentId := none, content := [97],
    authorId := uuid5, depth := 0, createdAt := 0, updatedAt := 0 }

/-- Child comment of the C9 witness store. -/
def c9W2 : Comment :=
  { id := uuid2, postId := uuid4, parentId := some uuid1, content := [98],
    authorId := uuid5, depth := 1, createdAt := 1, updatedAt := 1 }

/-- The C9 witness store: a rooted two-comment chain. -/
def c9W : List Comment := [c9W1, c9W2]

/-- C9 counterexample: the store `[c9A, c9B]` has distinct ids and
acyclic parent references, yet the flattened built forest is empty
(length 0) while exactly one comment — `c9B`, whose parent id occurs
in the list — satisfies the claim's filter, so the claimed count
identity fails: `c9B` hangs below the dropped orphan `c9A` and never
reaches a root. -/
theorem c9_counterexample :
    ((c9L.map (fun c => c.id)).Nodup ∧
      ∀ c ∈ c9L, ∀ p ∈ c9L, c.parentId = some p.id →
        c9rank p < c9rank c) ∧
    (flattenCommentsTree (buildCommentsTree c9L)).length = 0 ∧
    (c9L.filter (fun c => c.parentId == none ||
        c9L.any (fun p => c.parentId == some p.id))).length = 1 := by
  decide

/-- C9 amended: for an id-distinct list with acyclic parent references
(witnessed by a rank function), the length of the flattened built
forest equals the number of comments whose whole parent chain stays in
the list and reaches a parent-less root — not merely those whose
immediate parent is present. -/
theorem c9_amended_flatten_counts_rooted (L : List Comment)
    (rank : Comment → Nat)
    (hnd : (L.map (fun c => c.id)).Nodup)
    (hrank : ∀ c ∈ L, ∀ p ∈ L, c.parentId = some p.id → rank p < rank c) :
    (flattenCommentsTree (buildCommentsTree L)).length =
      (L.filter (fun c => rootedIn L L.length c)).length := by
  unfold flattenCommentsTree
  have hmem := mem_flatten_build_iff hnd hrank
  apply Nat.le_antisymm
  · apply nodup_subset_length_le (flatten_build_nodup hnd hrank)
    intro y hy
    rcases (hmem y).mp hy with ⟨hyL, hyr⟩
    exact List.mem_filter.mpr ⟨hyL, hyr⟩
  · apply nodup_subset_length_le ((List.Nodup.of_map _ hnd).filter _)
    intro y hy
    rcases List.mem_filter.mp hy with ⟨hyL, hyr⟩
    exact (hmem y).mpr ⟨hyL, hyr⟩

/-- C9 witness: on the rooted two-chain store both sides of the
amended identity evaluate to 2. -/
theorem c9_witness :
    ((c9W.map (fun c => c.id)).Nodup ∧
      ∀ c ∈ c9W, ∀ p ∈ c9W, c.parentId = some p.id →
        c9rank p < c9rank c) ∧
    (flattenCommentsTree (buildCommentsTree c9W)).length =
      (c9W.filter (fun c => rootedIn c9W c9W.length c)).length :=
  ⟨⟨by decide, by decide⟩,
    c9_amended_flatten_counts_rooted c9W c9rank (by decide) (by decide)⟩

end Habbr
